import Mathlib

/-!
# A shallow embedding of the bytecode interpreter of `jvm.c`

The interpreter loop `execute` and its two branch evaluators `jump_one` and
`jump_two` are translated into Lean functions.

Conventions of the embedding.

* An `int32_t` is an `Int`; every `int32_t` arithmetic result is reduced into the
  signed 32-bit range by `toS32`.
* A `size_t` is a `Nat`; every `size_t` sum is reduced modulo `2 ^ 64` by `szadd`.
* The height cursor `s_i` is a C `int`; it is kept as an unbounded `Int`.
* A C array is a `List`; `rd` and `wr` index it by an `Int`.  An access outside the
  allocated block is undefined in C: here a read outside yields `0` and a write
  outside is dropped.
* `execute` may run forever, so the loop takes a fuel argument and answers `none`
  when the fuel is exhausted.
* The native division of `INT32_MIN` by `-1` is undefined in C and traps on the host:
  a pass that performs it yields no frame, and so does the loop.
* The recursion of line 214 uses the host's native stack.  `loop` and `execute` take
  that stack as unbounded; `loop_bounded` and `execute_bounded` take the number of
  nested invocations it can hold and yield nothing when a call exceeds it.
-/

namespace JVM

/-! ## Machine integers -/

/-- A byte of the instruction stream (`u1`). -/
abbrev u1 := Fin 256

/-- Reduction of an integer into the signed 32-bit range (two's complement). -/
def toS32 (n : Int) : Int :=
  let m := n % 4294967296
  if m < 2147483648 then m else m - 4294967296

/-- The cast `(uint32_t) a`: the bit pattern of `a` read as an unsigned number. -/
def toU32 (a : Int) : Nat := (a % 4294967296).toNat

/-- The cast `(int8_t) b` of a byte. -/
def toInt8 (b : Nat) : Int :=
  let m := b % 256
  if m < 128 then (m : Int) else (m : Int) - 256

/-- The cast `(short) n`. -/
def toShort (n : Nat) : Int :=
  let m := n % 65536
  if m < 32768 then (m : Int) else (m : Int) - 65536

/-- The cast `(u2) n`. -/
def toU2 (n : Nat) : Nat := n % 65536

/-- The sum `pc + d` computed in `size_t`. -/
def szadd (pc : Nat) (d : Int) : Nat := (((pc : Int) + d) % 18446744073709551616).toNat

/-- The amount a 32-bit shift instruction uses.  C leaves a shift by an amount outside
`0..31` undefined; the low five bits are taken, as the hardware shift does. -/
def shamt (s : Int) : Nat := (s % 32).toNat

/-- The native `a / b` of line 104 on two `int32_t`, for `b ≠ 0`: the quotient truncated
toward zero.  The quotient of `INT32_MIN` by `-1` is not an `int32_t`: C leaves the
division undefined and the host's division instruction traps, so there is no result. -/
def native_div (a b : Int) : Option Int :=
  if a = -2147483648 ∧ b = -1 then none else some (toS32 (Int.tdiv a b))

/-- The native `a % b` of line 110 on two `int32_t`, for `b ≠ 0`: the remainder of the
division truncated toward zero, with no result for `INT32_MIN` and `-1`, where the
division it comes from traps. -/
def native_rem (a b : Int) : Option Int :=
  if a = -2147483648 ∧ b = -1 then none else some (toS32 (Int.tmod a b))

/-! ## Memory -/

/-- The read `mem[i]`. -/
def rd (mem : List Int) (i : Int) : Int :=
  if i < 0 then 0 else mem.getD i.toNat 0

/-- The write `mem[i] = v`. -/
def wr (mem : List Int) (i : Int) (v : Int) : List Int :=
  if i < 0 then mem else mem.set i.toNat v

/-- The read `code_inst[i]`, as a number in `0..255`. -/
def byteAt (code_inst : List u1) (i : Nat) : Nat := (code_inst.getD i 0).val

/-- The operand `(code_inst[pc + 1] << 8) | code_inst[pc + 2]`. -/
def operand16 (code_inst : List u1) (pc : Nat) : Nat :=
  (byteAt code_inst (szadd pc 1) <<< 8) ||| byteAt code_inst (szadd pc 2)

/-! ## Opcodes -/

/-- Modelled from the spec: the opcode enumeration of `jvm.h` is not among the sources.
The spec speaks of opcodes by their Java mnemonics; each name below carries the number
the Java Virtual Machine Specification gives that mnemonic. -/
abbrev i_nop : Nat := 0x00
/-- Modelled from the spec: opcode of `jvm.h`, push the constant -1. -/
abbrev i_iconst_m1 : Nat := 0x02
/-- Modelled from the spec: opcode of `jvm.h`, push the constant 0. -/
abbrev i_iconst_0 : Nat := 0x03
/-- Modelled from the spec: opcode of `jvm.h`, push the constant 5. -/
abbrev i_iconst_5 : Nat := 0x08
/-- Modelled from the spec: opcode of `jvm.h`, push a sign-extended byte. -/
abbrev i_bipush : Nat := 0x10
/-- Modelled from the spec: opcode of `jvm.h`, push a sign-extended two-byte value. -/
abbrev i_sipush : Nat := 0x11
/-- Modelled from the spec: opcode of `jvm.h`, push a constant-pool integer. -/
abbrev i_ldc : Nat := 0x12
/-- Modelled from the spec: opcode of `jvm.h`, load an integer local. -/
abbrev i_iload : Nat := 0x15
/-- Modelled from the spec: opcode of `jvm.h`, load a reference local. -/
abbrev i_aload : Nat := 0x19
/-- Modelled from the spec: opcode of `jvm.h`, load integer local 0. -/
abbrev i_iload_0 : Nat := 0x1a
/-- Modelled from the spec: opcode of `jvm.h`, load integer local 3. -/
abbrev i_iload_3 : Nat := 0x1d
/-- Modelled from the spec: opcode of `jvm.h`, load reference local 0. -/
abbrev i_aload_0 : Nat := 0x2a
/-- Modelled from the spec: opcode of `jvm.h`, load reference local 3. -/
abbrev i_aload_3 : Nat := 0x2d
/-- Modelled from the spec: opcode of `jvm.h`, array load. -/
abbrev i_iaload : Nat := 0x2e
/-- Modelled from the spec: opcode of `jvm.h`, store an integer local. -/
abbrev i_istore : Nat := 0x36
/-- Modelled from the spec: opcode of `jvm.h`, store a reference local. -/
abbrev i_astore : Nat := 0x3a
/-- Modelled from the spec: opcode of `jvm.h`, store integer local 0. -/
abbrev i_istore_0 : Nat := 0x3b
/-- Modelled from the spec: opcode of `jvm.h`, store integer local 3. -/
abbrev i_istore_3 : Nat := 0x3e
/-- Modelled from the spec: opcode of `jvm.h`, store reference local 0. -/
abbrev i_astore_0 : Nat := 0x4b
/-- Modelled from the spec: opcode of `jvm.h`, store reference local 3. -/
abbrev i_astore_3 : Nat := 0x4e
/-- Modelled from the spec: opcode of `jvm.h`, array store. -/
abbrev i_iastore : Nat := 0x4f
/-- Modelled from the spec: opcode of `jvm.h`, duplicate the top of stack. -/
abbrev i_dup : Nat := 0x59
/-- Modelled from the spec: opcode of `jvm.h`, add. -/
abbrev i_iadd : Nat := 0x60
/-- Modelled from the spec: opcode of `jvm.h`, subtract. -/
abbrev i_isub : Nat := 0x64
/-- Modelled from the spec: opcode of `jvm.h`, multiply. -/
abbrev i_imul : Nat := 0x68
/-- Modelled from the spec: opcode of `jvm.h`, divide. -/
abbrev i_idiv : Nat := 0x6c
/-- Modelled from the spec: opcode of `jvm.h`, remainder. -/
abbrev i_irem : Nat := 0x70
/-- Modelled from the spec: opcode of `jvm.h`, negate. -/
abbrev i_ineg : Nat := 0x74
/-- Modelled from the spec: opcode of `jvm.h`, shift left. -/
abbrev i_ishl : Nat := 0x78
/-- Modelled from the spec: opcode of `jvm.h`, arithmetic shift right. -/
abbrev i_ishr : Nat := 0x7a
/-- Modelled from the spec: opcode of `jvm.h`, logical shift right. -/
abbrev i_iushr : Nat := 0x7c
/-- Modelled from the spec: opcode of `jvm.h`, bitwise and. -/
abbrev i_iand : Nat := 0x7e
/-- Modelled from the spec: opcode of `jvm.h`, bitwise or. -/
abbrev i_ior : Nat := 0x80
/-- Modelled from the spec: opcode of `jvm.h`, bitwise exclusive or. -/
abbrev i_ixor : Nat := 0x82
/-- Modelled from the spec: opcode of `jvm.h`, increment a local. -/
abbrev i_iinc : Nat := 0x84
/-- Modelled from the spec: opcode of `jvm.h`, branch if zero. -/
abbrev i_ifeq : Nat := 0x99
/-- Modelled from the spec: opcode of `jvm.h`, branch if non-zero. -/
abbrev i_ifne : Nat := 0x9a
/-- Modelled from the spec: opcode of `jvm.h`, branch if negative. -/
abbrev i_iflt : Nat := 0x9b
/-- Modelled from the spec: opcode of `jvm.h`, branch if non-negative. -/
abbrev i_ifge : Nat := 0x9c
/-- Modelled from the spec: opcode of `jvm.h`, branch if positive. -/
abbrev i_ifgt : Nat := 0x9d
/-- Modelled from the spec: opcode of `jvm.h`, branch if non-positive. -/
abbrev i_ifle : Nat := 0x9e
/-- Modelled from the spec: opcode of `jvm.h`, branch if equal. -/
abbrev i_if_icmpeq : Nat := 0x9f
/-- Modelled from the spec: opcode of `jvm.h`, branch if different. -/
abbrev i_if_icmpne : Nat := 0xa0
/-- Modelled from the spec: opcode of `jvm.h`, branch if less. -/
abbrev i_if_icmplt : Nat := 0xa1
/-- Modelled from the spec: opcode of `jvm.h`, branch if greater or equal. -/
abbrev i_if_icmpge : Nat := 0xa2
/-- Modelled from the spec: opcode of `jvm.h`, branch if greater. -/
abbrev i_if_icmpgt : Nat := 0xa3
/-- Modelled from the spec: opcode of `jvm.h`, branch if less or equal. -/
abbrev i_if_icmple : Nat := 0xa4
/-- Modelled from the spec: opcode of `jvm.h`, unconditional jump. -/
abbrev i_goto : Nat := 0xa7
/-- Modelled from the spec: opcode of `jvm.h`, return an integer. -/
abbrev i_ireturn : Nat := 0xac
/-- Modelled from the spec: opcode of `jvm.h`, return a reference. -/
abbrev i_areturn : Nat := 0xb0
/-- Modelled from the spec: opcode of `jvm.h`, return no value. -/
abbrev i_return : Nat := 0xb1
/-- Modelled from the spec: opcode of `jvm.h`, static field access placeholder. -/
abbrev i_getstatic : Nat := 0xb2
/-- Modelled from the spec: opcode of `jvm.h`, the print call. -/
abbrev i_invokevirtual : Nat := 0xb6
/-- Modelled from the spec: opcode of `jvm.h`, static invocation. -/
abbrev i_invokestatic : Nat := 0xb8
/-- Modelled from the spec: opcode of `jvm.h`, array allocation. -/
abbrev i_newarray : Nat := 0xbc
/-- Modelled from the spec: opcode of `jvm.h`, array length query. -/
abbrev i_arraylength : Nat := 0xbe

/-! ## Class model and heap -/

/-- Modelled from the spec: `method_t` of `read_class.h` is not among the sources.  A
method has raw bytecode, a maximum operand-stack depth, a maximum locals-slot count and
a derived parameter count (`get_number_of_parameters`). -/
structure method_t where
  /-- Field `code.max_stack`. -/
  max_stack : Nat
  /-- Field `code.max_locals`. -/
  max_locals : Nat
  /-- Field `code.code`. -/
  code : List u1
  /-- Result of `get_number_of_parameters`. -/
  number_of_parameters : Nat

/-- Modelled from the spec: `class_file_t` of `read_class.h` is not among the sources.
The class model offers the integer literal of a constant-pool entry by index and the
lookup of a method by a raw pool-relative index (`find_method_from_index`). -/
structure class_file_t where
  /-- The `bytes` field of the integer entry at each slot of the constant pool. -/
  constant_pool : List Int
  /-- Result of `find_method_from_index`. -/
  find_method_from_index : Nat → method_t

/-- Modelled from the spec: `heap_t` of `heap.h` is not among the sources.  The heap is an
append-only array of integer-array allocations, referenced by integer index. -/
abbrev heap_t := List (List Int)

/-- Modelled from the spec: `heap_add` stores a new array and returns the new index. -/
def heap_add (heap : heap_t) (arr : List Int) : heap_t × Int :=
  (heap ++ [arr], (heap.length : Int))

/-- Modelled from the spec: `heap_get` resolves a reference to its backing array, with
no bounds checking. -/
def heap_get (heap : heap_t) (ref : Int) : List Int :=
  if ref < 0 then [] else heap.getD ref.toNat []

/-- The effect on the heap of a write through the pointer that `heap_get` returned. -/
def heap_put (heap : heap_t) (ref : Int) (arr : List Int) : heap_t :=
  if ref < 0 then heap else heap.set ref.toNat arr

/-- The type `optional_value_t`. -/
structure optional_value_t where
  /-- Whether a value was returned. -/
  has_value : Bool
  /-- The returned value. -/
  value : Int
deriving DecidableEq, Repr

/-! ## The branch evaluators -/

/-- The function `jump_one`. -/
def jump_one (curr : Nat) (code_inst : List u1) (stack : List Int) (pc_prev : Nat)
    (s_i : Int) : Nat :=
  let a := rd stack (s_i - 1)
  let pc := pc_prev
  let b_ifeq := decide (curr = i_ifeq)
  let b_ifne := decide (curr = i_ifne)
  let b_iflt := decide (curr = i_iflt)
  let b_ifge := decide (curr = i_ifge)
  let b_ifgt := decide (curr = i_ifgt)
  let b_ifle := decide (curr = i_ifle)
  if (b_ifeq && decide (a = 0)) || (b_ifne && decide (a ≠ 0)) || (b_iflt && decide (a < 0)) ||
      (b_ifge && decide (a ≥ 0)) || (b_ifgt && decide (a > 0)) || (b_ifle && decide (a ≤ 0)) then
    szadd pc (toShort (operand16 code_inst pc))
  else
    szadd pc 3

/-- The function `jump_two`. -/
def jump_two (curr : Nat) (code_inst : List u1) (stack : List Int) (pc_prev : Nat)
    (s_i : Int) : Nat :=
  let a := rd stack (s_i - 2)
  let b := rd stack (s_i - 1)
  let pc := pc_prev
  let b_if_icmpeq := decide (curr = i_if_icmpeq)
  let b_if_icmpne := decide (curr = i_if_icmpne)
  let b_if_icmplt := decide (curr = i_if_icmplt)
  let b_if_icmpge := decide (curr = i_if_icmpge)
  let b_if_icmpgt := decide (curr = i_if_icmpgt)
  let b_if_icmple := decide (curr = i_if_icmple)
  if (b_if_icmpeq && decide (a = b)) || (b_if_icmpne && decide (a ≠ b)) ||
      (b_if_icmplt && decide (a < b)) || (b_if_icmpge && decide (a ≥ b)) ||
      (b_if_icmpgt && decide (a > b)) || (b_if_icmple && decide (a ≤ b)) then
    szadd pc (toShort (operand16 code_inst pc))
  else
    szadd pc 3

/-! ## The interpreter loop -/

/-- The variables of one invocation of `execute`, with the memory they point to and the
output printed so far (one entry for each line that `printf` wrote). -/
structure frame where
  /-- The program counter `pc`. -/
  pc : Nat
  /-- The height cursor `s_i`. -/
  s_i : Int
  /-- The block `stack`. -/
  stack : List Int
  /-- The opcode `curr`. -/
  curr : Nat
  /-- The block `locals`. -/
  locals : List Int
  /-- The heap. -/
  heap : heap_t
  /-- The integers printed. -/
  out : List Int
  /-- The variable `result`. -/
  result : optional_value_t
deriving DecidableEq, Repr

/-- The state of `execute` on reaching its `while`: lines 52 to 57. -/
def init_frame (method : method_t) (locals : List Int) (heap : heap_t) (out : List Int) :
    frame :=
  { pc := 0
    s_i := 0
    stack := List.replicate method.max_stack 0
    curr := byteAt method.code 0
    locals := locals
    heap := heap
    out := out
    result := { has_value := false, value := 0 } }

/-- The parameter loop of `i_invokestatic`, lines 210 to 213, with `k = i + 1`: it yields
the callee's locals and the caller's height cursor. -/
def load_params (stack : List Int) : Nat → List Int → Int → List Int × Int
  | 0, locals_c, s_i => (locals_c, s_i)
  | k + 1, locals_c, s_i =>
    load_params stack k (wr locals_c (k : Int) (rd stack (s_i - 1))) (s_i - 1)

/-- The caller's frame once the callee has returned: lines 216 to 220.  The callee's
frame `fc` hands over its result, the heap and the output. -/
def finish_call (f : frame) (fc : frame) : frame :=
  let f := { f with heap := fc.heap, out := fc.out }
  if fc.result.has_value then
    { f with stack := wr f.stack f.s_i fc.result.value, s_i := f.s_i + 1, pc := szadd f.pc 3 }
  else
    { f with pc := szadd f.pc 3 }

/-- One pass through the body of the `while` loop, lines 59 to 268.  The argument `exec`
runs a callee (`execute` on a child method, its locals, the heap and the output) and
yields the callee's final frame, or `none` when the callee does not return.  The boolean
of the result tells whether the pass left the loop through `break`.  The pass yields
`none` when the callee does not return or when a native division traps. -/
def body (cls : class_file_t)
    (exec : method_t → List Int → heap_t → List Int → Option frame)
    (method : method_t) (f0 : frame) : Option (frame × Bool) :=
  let code_inst := method.code
  let pc := f0.pc
  let s_i := f0.s_i
  let stack := f0.stack
  let locals := f0.locals
  let heap := f0.heap
  let curr := byteAt code_inst pc
  let f : frame := { f0 with curr := curr }
  if curr = i_bipush then
    some ({ f with stack := wr stack s_i (toInt8 (byteAt code_inst (szadd pc 1)))
                   pc := szadd pc 2, s_i := s_i + 1 }, false)
  else if curr = i_iadd then
    let sum := toS32 (rd stack (s_i - 2) + rd stack (s_i - 1))
    some ({ f with stack := wr stack (s_i - 2) sum, s_i := s_i - 1, pc := szadd pc 1 }, false)
  else if curr = i_getstatic then
    some ({ f with pc := szadd pc 3 }, false)
  else if curr = i_invokevirtual then
    some ({ f with out := f.out ++ [rd stack (s_i - 1)], s_i := s_i - 1
                   pc := szadd pc 3 }, false)
  else if curr ≥ i_iconst_m1 ∧ curr ≤ i_iconst_5 then
    some ({ f with stack := wr stack s_i (toS32 (toInt8 curr - (i_iconst_0 : Int)))
                   s_i := s_i + 1, pc := szadd pc 1 }, false)
  else if curr = i_sipush then
    some ({ f with stack := wr stack s_i (toShort (operand16 code_inst pc))
                   s_i := s_i + 1, pc := szadd pc 3 }, false)
  else if curr = i_isub then
    let diff := toS32 (rd stack (s_i - 2) - rd stack (s_i - 1))
    some ({ f with stack := wr stack (s_i - 2) diff, s_i := s_i - 1, pc := szadd pc 1 }, false)
  else if curr = i_imul then
    let product := toS32 (rd stack (s_i - 2) * rd stack (s_i - 1))
    some ({ f with stack := wr stack (s_i - 2) product, s_i := s_i - 1
                   pc := szadd pc 1 }, false)
  else if curr = i_idiv ∧ rd stack (s_i - 1) ≠ 0 then
    (native_div (rd stack (s_i - 2)) (rd stack (s_i - 1))).map fun quotient =>
      ({ f with stack := wr stack (s_i - 2) quotient, s_i := s_i - 1, pc := szadd pc 1 }, false)
  else if curr = i_irem ∧ rd stack (s_i - 1) ≠ 0 then
    (native_rem (rd stack (s_i - 2)) (rd stack (s_i - 1))).map fun remainder =>
      ({ f with stack := wr stack (s_i - 2) remainder, s_i := s_i - 1, pc := szadd pc 1 }, false)
  else if curr = i_ineg then
    let val := rd stack (s_i - 1)
    some ({ f with stack := wr stack (s_i - 1) (toS32 (-1 * val)), pc := szadd pc 1 }, false)
  else if curr = i_ishl then
    let left_shift := toS32 ((toU32 (rd stack (s_i - 2)) <<< shamt (rd stack (s_i - 1)) : Nat) : Int)
    some ({ f with stack := wr stack (s_i - 2) left_shift, s_i := s_i - 1
                   pc := szadd pc 1 }, false)
  else if curr = i_ishr then
    let right_shift := toS32 (rd stack (s_i - 2) >>> shamt (rd stack (s_i - 1)))
    some ({ f with stack := wr stack (s_i - 2) right_shift, s_i := s_i - 1
                   pc := szadd pc 1 }, false)
  else if curr = i_iushr then
    let u_right_shift : Nat := toU32 (rd stack (s_i - 2)) >>> shamt (rd stack (s_i - 1))
    some ({ f with stack := wr stack (s_i - 2) (toS32 (u_right_shift : Int)), s_i := s_i - 1
                   pc := szadd pc 1 }, false)
  else if curr = i_iand then
    let and := toS32 (Int.land (rd stack (s_i - 2)) (rd stack (s_i - 1)))
    some ({ f with stack := wr stack (s_i - 2) and, s_i := s_i - 1, pc := szadd pc 1 }, false)
  else if curr = i_ior then
    let or := toS32 (Int.lor (rd stack (s_i - 2)) (rd stack (s_i - 1)))
    some ({ f with stack := wr stack (s_i - 2) or, s_i := s_i - 1, pc := szadd pc 1 }, false)
  else if curr = i_ixor then
    let xor := toS32 (Int.xor (rd stack (s_i - 2)) (rd stack (s_i - 1)))
    some ({ f with stack := wr stack (s_i - 2) xor, s_i := s_i - 1, pc := szadd pc 1 }, false)
  else if curr = i_iload ∨ curr = i_aload then
    some ({ f with stack := wr stack s_i (rd locals (byteAt code_inst (szadd pc 1) : Nat))
                   s_i := s_i + 1, pc := szadd pc 2 }, false)
  else if curr = i_istore ∨ curr = i_astore then
    some ({ f with locals := wr locals (byteAt code_inst (szadd pc 1) : Nat) (rd stack (s_i - 1))
                   s_i := s_i - 1, pc := szadd pc 2 }, false)
  else if curr = i_iinc then
    let k : Int := (byteAt code_inst (szadd pc 1) : Nat)
    some ({ f with locals := wr locals k
                     (toS32 (rd locals k + toInt8 (byteAt code_inst (szadd pc 2))))
                   pc := szadd pc 3 }, false)
  else if curr ≤ i_iload_3 ∧ curr ≥ i_iload_0 then
    some ({ f with stack := wr stack s_i (rd locals ((curr : Int) - (i_iload_0 : Int)))
                   s_i := s_i + 1, pc := szadd pc 1 }, false)
  else if curr ≤ i_istore_3 ∧ curr ≥ i_istore_0 then
    some ({ f with locals := wr locals ((curr : Int) - (i_istore_0 : Int)) (rd stack (s_i - 1))
                   s_i := s_i - 1, pc := szadd pc 1 }, false)
  else if curr = i_ldc then
    some ({ f with stack := wr stack s_i
                     (rd cls.constant_pool ((byteAt code_inst (szadd pc 1) : Int) - 1))
                   s_i := s_i + 1, pc := szadd pc 2 }, false)
  else if curr ≥ i_ifeq ∧ curr ≤ i_ifle then
    some ({ f with pc := jump_one curr code_inst stack pc s_i, s_i := s_i - 1 }, false)
  else if curr ≥ i_if_icmpeq ∧ curr ≤ i_if_icmple then
    some ({ f with pc := jump_two curr code_inst stack pc s_i, s_i := s_i - 2 }, false)
  else if curr = i_goto then
    some ({ f with pc := szadd pc (toShort (operand16 code_inst pc)) }, false)
  else if curr = i_ireturn ∨ curr = i_areturn then
    some ({ f with result := { has_value := true, value := rd stack (s_i - 1) }
                   s_i := s_i - 1, pc := szadd pc 1 }, true)
  else if curr = i_invokestatic then
    let idx := toU2 (operand16 code_inst pc)
    let child := cls.find_method_from_index idx
    let locals_c := List.replicate child.max_locals (0 : Int)
    let args := load_params stack child.number_of_parameters locals_c s_i
    match exec child args.1 heap f.out with
    | none => none
    | some fc => some (finish_call { f with s_i := args.2 } fc, false)
  else if curr = i_nop then
    some ({ f with pc := szadd pc 1 }, false)
  else if curr = i_dup then
    some ({ f with stack := wr stack s_i (rd stack (s_i - 1)), s_i := s_i + 1
                   pc := szadd pc 1 }, false)
  else if curr = i_newarray then
    let count := rd stack (s_i - 1)
    let arr := wr (List.replicate (toS32 (count + 1)).toNat (0 : Int)) 0 count
    let added := heap_add heap arr
    some ({ f with heap := added.1, stack := wr stack (s_i - 1) added.2
                   pc := szadd pc 2 }, false)
  else if curr = i_arraylength then
    let arr := heap_get heap (rd stack (s_i - 1))
    some ({ f with stack := wr stack (s_i - 1) (rd arr 0), pc := szadd pc 1 }, false)
  else if curr = i_iastore then
    let ref := rd stack (s_i - 3)
    let arr := heap_get heap ref
    some ({ f with heap := heap_put heap ref
                     (wr arr (toS32 (rd stack (s_i - 2) + 1)) (rd stack (s_i - 1)))
                   s_i := s_i - 3, pc := szadd pc 1 }, false)
  else if curr = i_iaload then
    let arr := heap_get heap (rd stack (s_i - 2))
    some ({ f with stack := wr stack (s_i - 2) (rd arr (toS32 (rd stack (s_i - 1) + 1)))
                   s_i := s_i - 1, pc := szadd pc 1 }, false)
  else if curr ≤ i_aload_3 ∧ curr ≥ i_aload_0 then
    some ({ f with stack := wr stack s_i (rd locals ((curr : Int) - (i_aload_0 : Int)))
                   s_i := s_i + 1, pc := szadd pc 1 }, false)
  else if curr ≤ i_astore_3 ∧ curr ≥ i_astore_0 then
    some ({ f with locals := wr locals ((curr : Int) - (i_astore_0 : Int)) (rd stack (s_i - 1))
                   s_i := s_i - 1, pc := szadd pc 1 }, false)
  else
    some (f, false)

/-- The `while` loop of `execute`, lines 58 to 269, run from a frame with at most `fuel`
passes through the loop body in this invocation and a smaller allowance in each nested
one.  The answer is the frame on leaving the loop, and `none` when the fuel does not
suffice or a pass traps.  A nested call is charged fuel only: the host's native stack is
taken as unbounded here, and `loop_bounded` adds its bound. -/
def loop (cls : class_file_t) : Nat → method_t → frame → Option frame
  | 0, _, _ => none
  | fuel + 1, method, f =>
    if f.curr = i_return then some f
    else
      match body cls
          (fun child locals_c heap out => loop cls fuel child (init_frame child locals_c heap out))
          method f with
      | none => none
      | some (f1, true) => some f1
      | some (f1, false) => loop cls fuel method f1

/-- The function `execute`, with fuel: the final frame of the invocation, whose `result`
is the value `execute` returns, whose `locals` and `heap` are the memory it leaves behind
and whose `out` is everything printed. -/
def execute (cls : class_file_t) (fuel : Nat) (method : method_t) (locals : List Int)
    (heap : heap_t) (out : List Int) : Option frame :=
  loop cls fuel method (init_frame method locals heap out)

/-- The `while` loop of `execute` on a host whose native stack holds `depth` more nested
invocations of `execute`.  It is `loop`, except that the call of line 214 yields nothing
when `depth` is 0: the native recursion exhausts the host's stack and the run is killed. -/
def loop_bounded (cls : class_file_t) : Nat → Nat → method_t → frame → Option frame
  | _, 0, _, _ => none
  | depth, fuel + 1, method, f =>
    if f.curr = i_return then some f
    else
      match body cls
          (fun child locals_c heap out =>
            match depth with
            | 0 => none
            | d + 1 => loop_bounded cls d fuel child (init_frame child locals_c heap out))
          method f with
      | none => none
      | some (f1, true) => some f1
      | some (f1, false) => loop_bounded cls depth fuel method f1

/-- The function `execute` on a host whose native stack holds `depth` more nested
invocations. -/
def execute_bounded (cls : class_file_t) (depth fuel : Nat) (method : method_t)
    (locals : List Int) (heap : heap_t) (out : List Int) : Option frame :=
  loop_bounded cls depth fuel method (init_frame method locals heap out)

/-- The callee runner of a pass of `loop_bounded`: `execute_bounded` one level deeper, and
nothing when the host's stack holds no further invocation. -/
def nested_call (cls : class_file_t) (depth fuel : Nat) (child : method_t)
    (locals_c : List Int) (heap : heap_t) (out : List Int) : Option frame :=
  match depth with
  | 0 => none
  | d + 1 => execute_bounded cls d fuel child locals_c heap out

/-! ## Definitions used by the statements -/

/-- The signed 16-bit value of the big-endian byte pair `hi`, `lo`, as the specification
words it. -/
def s16be (hi lo : Nat) : Int :=
  if hi * 256 + lo < 32768 then ((hi * 256 + lo : Nat) : Int)
  else ((hi * 256 + lo : Nat) : Int) - 65536

/-- The locals array `locals_c` that `i_invokestatic` hands to the callee, from the
caller's stack and height: lines 209 to 213. -/
def callee_locals (child : method_t) (stack : List Int) (s_i : Int) : List Int :=
  (load_params stack child.number_of_parameters (List.replicate child.max_locals 0) s_i).1

/-- A callee of two parameters that returns its parameter slot 0: `iload_0; ireturn`. -/
def first_param_method : method_t :=
  { max_stack := 1, max_locals := 2, code := [0x1a, 0xac], number_of_parameters := 2 }

/-- A caller that pushes 10, then 20, calls the method of index 1 and prints what it
returned: `bipush 10; bipush 20; invokestatic 1; invokevirtual; return`. -/
def two_arg_caller : method_t :=
  { max_stack := 2, max_locals := 0
    code := [0x10, 0x0a, 0x10, 0x14, 0xb8, 0x00, 0x01, 0xb6, 0x00, 0x00, 0xb1]
    number_of_parameters := 0 }

/-- A class model whose every method index resolves to `first_param_method`. -/
def two_arg_class : class_file_t :=
  { constant_pool := [], find_method_from_index := fun _ => first_param_method }

/-- The frame of `two_arg_caller` on reaching its `invokestatic`, at height 2. -/
def two_arg_frame : frame :=
  { pc := 4, s_i := 2, stack := [10, 20], curr := 0x10, locals := [], heap := [], out := []
    result := { has_value := false, value := 0 } }

/-- The final frame of `first_param_method` called from `two_arg_frame`. -/
def first_param_final : frame :=
  { pc := 2, s_i := 0, stack := [10], curr := 0xac, locals := [10, 20], heap := [], out := []
    result := { has_value := true, value := 10 } }

/-- The integer `r` is `x` reduced modulo `2 ^ 32` into the signed 32-bit range, as the
specification words it. -/
def reduces32 (x r : Int) : Prop :=
  -2147483648 ≤ r ∧ r ≤ 2147483647 ∧ (r - x) % 4294967296 = 0

instance reduces32_decidable (x r : Int) : Decidable (reduces32 x r) := by
  unfold reduces32
  infer_instance

/-- A frame of height 2 holding the operands `a` (pushed first) and `b`, at `pc = 0`. -/
def operand_frame (a b : Int) : frame :=
  { pc := 0, s_i := 2, stack := [a, b], curr := 0, locals := [], heap := [], out := []
    result := { has_value := false, value := 0 } }

/-- A method made of one instruction byte sequence, with room for two operands. -/
def code_method (code : List u1) : method_t :=
  { max_stack := 2, max_locals := 0, code := code, number_of_parameters := 0 }

/-- A class model without constants, whose every method index resolves to the empty
method. -/
def empty_class : class_file_t :=
  { constant_pool := [], find_method_from_index := fun _ => code_method [] }

/-- The bytes the dispatch loop recognises as an opcode: the opcode its condition tests
(line 58) and the opcodes the conditions of its `if` chain test (lines 61 to 264). -/
def recognised (curr : Nat) : Prop :=
  curr = i_return ∨ curr = i_bipush ∨ curr = i_iadd ∨ curr = i_getstatic ∨
  curr = i_invokevirtual ∨ (curr ≥ i_iconst_m1 ∧ curr ≤ i_iconst_5) ∨ curr = i_sipush ∨
  curr = i_isub ∨ curr = i_imul ∨ curr = i_idiv ∨ curr = i_irem ∨ curr = i_ineg ∨
  curr = i_ishl ∨ curr = i_ishr ∨ curr = i_iushr ∨ curr = i_iand ∨ curr = i_ior ∨
  curr = i_ixor ∨ (curr = i_iload ∨ curr = i_aload) ∨ (curr = i_istore ∨ curr = i_astore) ∨
  curr = i_iinc ∨ (curr ≤ i_iload_3 ∧ curr ≥ i_iload_0) ∨
  (curr ≤ i_istore_3 ∧ curr ≥ i_istore_0) ∨ curr = i_ldc ∨
  (curr ≥ i_ifeq ∧ curr ≤ i_ifle) ∨ (curr ≥ i_if_icmpeq ∧ curr ≤ i_if_icmple) ∨
  curr = i_goto ∨ (curr = i_ireturn ∨ curr = i_areturn) ∨ curr = i_invokestatic ∨
  curr = i_nop ∨ curr = i_dup ∨ curr = i_newarray ∨ curr = i_arraylength ∨
  curr = i_iastore ∨ curr = i_iaload ∨ (curr ≤ i_aload_3 ∧ curr ≥ i_aload_0) ∨
  (curr ≤ i_astore_3 ∧ curr ≥ i_astore_0)

instance recognised_decidable (curr : Nat) : Decidable (recognised curr) := by
  unfold recognised
  infer_instance

/-- No instruction case matches in `f`: the opcode at `pc` is `idiv` or `irem` with a zero
on top of the stack, or it is a byte the dispatch loop does not recognise. -/
def no_case_matches (method : method_t) (f : frame) : Prop :=
  ((byteAt method.code f.pc = i_idiv ∨ byteAt method.code f.pc = i_irem) ∧
      rd f.stack (f.s_i - 1) = 0) ∨
    ¬ recognised (byteAt method.code f.pc)

instance no_case_matches_decidable (method : method_t) (f : frame) :
    Decidable (no_case_matches method f) := by
  unfold no_case_matches
  infer_instance

/-- A frame of height 2 with the values 7 and `v` on the stack and three locals, at
`pc = 0`. -/
def store_frame (v : Int) : frame :=
  { pc := 0, s_i := 2, stack := [7, v], curr := 0, locals := [1, 2, 3], heap := [], out := []
    result := { has_value := false, value := 0 } }

/-- A method of three locals made of one instruction byte sequence. -/
def locals_method (code : List u1) : method_t :=
  { max_stack := 2, max_locals := 3, code := code, number_of_parameters := 0 }

/-- The heap holds at the reference `r` a backing block of `L + 1` slots: an array of `L`
elements behind its header slot. -/
def allocated (heap : heap_t) (r L : Int) : Prop :=
  0 ≤ r ∧ r < heap.length ∧ ((heap_get heap r).length : Int) = L + 1

instance allocated_decidable (heap : heap_t) (r L : Int) : Decidable (allocated heap r L) := by
  unfold allocated
  infer_instance

/-- The frame `f` of `method` stands at an `iaload` with the operands `r` (reference) and
`j` (index) on top of its stack. -/
def iaload_ready (method : method_t) (f : frame) (r j : Int) : Prop :=
  byteAt method.code f.pc = i_iaload ∧ 2 ≤ f.s_i ∧ f.s_i ≤ f.stack.length ∧
    rd f.stack (f.s_i - 2) = r ∧ rd f.stack (f.s_i - 1) = j ∧
    f.pc < method.code.length ∧ method.code.length < 4294967296

instance iaload_ready_decidable (method : method_t) (f : frame) (r j : Int) :
    Decidable (iaload_ready method f r j) := by
  unfold iaload_ready
  infer_instance

/-- A frame at `pc = 0` with the given stack, filled to its capacity, and the given
heap. -/
def heap_frame (stack : List Int) (heap : heap_t) : frame :=
  { pc := 0, s_i := stack.length, stack := stack, curr := 0, locals := [], heap := heap
    out := [], result := { has_value := false, value := 0 } }

/-- The heap holds at the reference `r` an array of logical length `L`: a backing block
of `L + 1` slots whose slot 0 holds `L`. -/
def array_at (heap : heap_t) (r L : Int) : Prop :=
  allocated heap r L ∧ rd (heap_get heap r) 0 = L

instance array_at_decidable (heap : heap_t) (r L : Int) : Decidable (array_at heap r L) := by
  unfold array_at
  infer_instance

/-- The frames the loop of `execute` on `method` passes through after the frame `f0`: each
pass is entered because `curr` is not `return` and ends without `break`; the calls nested
in a pass may take any amount of fuel. -/
inductive reaches (cls : class_file_t) (method : method_t) (f0 : frame) : frame → Prop where
  | start : reaches cls method f0 f0
  | pass (fuel : Nat) (f g : frame) :
      reaches cls method f0 f → f.curr ≠ i_return →
      body cls (execute cls fuel) method f = some (g, false) → reaches cls method f0 g

/-- The signed 8-bit value of the byte `b`, as the specification words it. -/
def s8 (b : Nat) : Int :=
  if b < 128 then (b : Int) else (b : Int) - 256

/-- A frame at `pc = 0` and height 1, with the value 7 on a stack of capacity 2 and one
local holding 4. -/
def push_frame : frame :=
  { pc := 0, s_i := 1, stack := [7, 0], curr := 0, locals := [4], heap := [], out := []
    result := { has_value := false, value := 0 } }

/-- A class model whose constant pool holds the integers 100000 and -7. -/
def pool_class : class_file_t :=
  { constant_pool := [100000, -7], find_method_from_index := fun _ => code_method [] }

/-- The text that the calls `printf("%d\n", v)` of line 76 wrote, for the printed integers
`out`. -/
def printed (out : List Int) : String :=
  String.join (out.map fun v => toString v ++ "\n")

/-- The method `iconst_2; iconst_3; iadd; invokevirtual; return`, with `max_stack = 2`. -/
def sum_method (max_locals : Nat) : method_t :=
  { max_stack := 2, max_locals := max_locals
    code := [0x05, 0x06, 0x60, 0xb6, 0x00, 0x00, 0xb1], number_of_parameters := 0 }

/-- The method `getstatic; iconst_2; iconst_3; iadd; invokevirtual; return`, with
`max_stack = 2`. -/
def sum_method_getstatic (max_locals : Nat) : method_t :=
  { max_stack := 2, max_locals := max_locals
    code := [0xb2, 0x00, 0x00, 0x05, 0x06, 0x60, 0xb6, 0x00, 0x00, 0xb1]
    number_of_parameters := 0 }

/-- The recursive factorial method, of one parameter, `max_locals = 1` and
`max_stack = 3`: `iload_0; ifgt +5; iconst_1; ireturn; iload_0; iload_0; iconst_1; isub;
invokestatic 1; imul; ireturn`. -/
def fact_method : method_t :=
  { max_stack := 3, max_locals := 1
    code := [0x1a, 0x9d, 0x00, 0x05, 0x04, 0xac, 0x1a, 0x1a, 0x04, 0x64, 0xb8, 0x00, 0x01,
      0x68, 0xac]
    number_of_parameters := 1 }

/-- The entry method `bipush 5; invokestatic 1; invokevirtual; return`. -/
def fact_entry : method_t :=
  { max_stack := 1, max_locals := 1
    code := [0x10, 0x05, 0xb8, 0x00, 0x01, 0xb6, 0x00, 0x00, 0xb1]
    number_of_parameters := 1 }

/-- A class model whose every method index resolves to `fact_method`. -/
def fact_class : class_file_t :=
  { constant_pool := [], find_method_from_index := fun _ => fact_method }

/-- A frame of `fact_method` called on `n`, before its return. -/
def fact_frame (pc : Nat) (s_i : Int) (stack : List Int) (curr : Nat) (n : Int) (heap : heap_t)
    (out : List Int) : frame :=
  { pc := pc, s_i := s_i, stack := stack, curr := curr, locals := [n], heap := heap, out := out
    result := { has_value := false, value := 0 } }

/-- A frame at the given `pc` with the stack `[3, 0]` at height 2 and the locals
`[10, 2147483647]`. -/
def branch_frame (pc : Nat) : frame :=
  { pc := pc, s_i := 2, stack := [3, 0], curr := 0, locals := [10, 2147483647], heap := []
    out := [], result := { has_value := false, value := 0 } }

/-- A callee of no parameter that returns no value: `return`. -/
def void_method : method_t :=
  { max_stack := 0, max_locals := 0, code := [0xb1], number_of_parameters := 0 }

/-- A caller with `max_stack = 0` that calls the method of index 1 and returns:
`invokestatic 1; return`. -/
def void_caller : method_t :=
  { max_stack := 0, max_locals := 0, code := [0xb8, 0x00, 0x01, 0xb1]
    number_of_parameters := 0 }

/-- A class model whose every method index resolves to `void_method`. -/
def void_class : class_file_t :=
  { constant_pool := [], find_method_from_index := fun _ => void_method }

/-! ## Auxiliary lemmas -/

theorem length_wr (mem : List Int) (i v : Int) : (wr mem i v).length = mem.length := by
  unfold wr
  split <;> simp

theorem rd_wr_same (mem : List Int) (i v : Int) (h0 : 0 ≤ i) (h1 : i < mem.length) :
    rd (wr mem i v) i = v := by
  have hlt : i.toNat < mem.length := by omega
  simp [rd, wr, Int.not_lt.mpr h0, List.getD_eq_getElem?_getD, List.getElem?_set, hlt]

theorem rd_wr_ne (mem : List Int) (i j v : Int) (h : i ≠ j) :
    rd (wr mem i v) j = rd mem j := by
  unfold rd wr
  by_cases hj : j < 0
  · simp [hj]
  · by_cases hi : i < 0
    · simp [hi]
    · have hne : i.toNat ≠ j.toNat := by omega
      simp [hj, hi, List.getD_eq_getElem?_getD, List.getElem?_set, hne]

theorem load_params_spec (stack : List Int) (k : Nat) :
    ∀ (locals_c : List Int) (s_i : Int), k ≤ locals_c.length →
      (load_params stack k locals_c s_i).2 = s_i - k ∧
      (load_params stack k locals_c s_i).1.length = locals_c.length ∧
      (∀ i : Nat, i < k →
        rd (load_params stack k locals_c s_i).1 i = rd stack (s_i - k + i)) ∧
      (∀ j : Int, (k : Int) ≤ j →
        rd (load_params stack k locals_c s_i).1 j = rd locals_c j) := by
  induction k with
  | zero =>
    intro locals_c s_i _
    simp [load_params]
  | succ k ih =>
    intro locals_c s_i hk
    have hlen := length_wr locals_c (k : Int) (rd stack (s_i - 1))
    obtain ⟨h1, h2, h3, h4⟩ := ih (wr locals_c (k : Int) (rd stack (s_i - 1))) (s_i - 1)
      (by omega)
    simp only [load_params]
    refine ⟨by rw [h1]; push_cast; ring, by rw [h2, hlen], ?_, ?_⟩
    · intro i hi
      by_cases hik : i < k
      · rw [h3 i hik]
        congr 1
        push_cast
        ring
      · have hik2 : i = k := by omega
        subst hik2
        rw [h4 (i : Int) (le_refl _), rd_wr_same _ _ _ (by omega) (by omega)]
        congr 1
        push_cast
        ring
    · intro j hj
      rw [h4 j (by push_cast at hj; omega), rd_wr_ne _ _ _ _ (by push_cast at hj; omega)]

theorem rd_replicate_zero (n : Nat) (j : Int) : rd (List.replicate n (0 : Int)) j = 0 := by
  unfold rd
  split
  · rfl
  · simp only [List.getD_eq_getElem?_getD, List.getElem?_replicate]
    split <;> rfl

theorem byteAt_lt (code_inst : List u1) (i : Nat) : byteAt code_inst i < 256 := by
  unfold byteAt
  exact (code_inst.getD i 0).isLt

theorem szadd_nat (pc k : Nat) (h : pc + k < 18446744073709551616) :
    szadd pc (k : Int) = pc + k := by
  unfold szadd
  omega

theorem szadd_int (pc : Nat) (d : Int) (h0 : 0 ≤ (pc : Int) + d)
    (h1 : (pc : Int) + d < 18446744073709551616) : (szadd pc d : Int) = (pc : Int) + d := by
  unfold szadd
  omega

theorem shl8_lor (hi lo : Nat) (hlo : lo < 256) : (hi <<< 8) ||| lo = hi * 256 + lo := by
  have h := Nat.mul_add_lt_is_or (show lo < 2 ^ 8 by simpa using hlo) hi
  rw [Nat.shiftLeft_eq, Nat.mul_comm hi (2 ^ 8), ← h]

theorem operand16_eq (code_inst : List u1) (pc : Nat) (h : pc + 2 < 18446744073709551616) :
    operand16 code_inst pc = byteAt code_inst (pc + 1) * 256 + byteAt code_inst (pc + 2) := by
  unfold operand16
  have h1 : szadd pc 1 = pc + 1 := szadd_nat pc 1 (by omega)
  have h2 : szadd pc 2 = pc + 2 := szadd_nat pc 2 (by omega)
  rw [h1, h2]
  exact shl8_lor _ _ (byteAt_lt _ _)

theorem toShort_operand16 (code_inst : List u1) (pc : Nat) (h : pc + 2 < 18446744073709551616) :
    toShort (operand16 code_inst pc)
      = s16be (byteAt code_inst (pc + 1)) (byteAt code_inst (pc + 2)) := by
  rw [operand16_eq code_inst pc h]
  have h1 := byteAt_lt code_inst (pc + 1)
  have h2 := byteAt_lt code_inst (pc + 2)
  unfold toShort s16be
  have : (byteAt code_inst (pc + 1) * 256 + byteAt code_inst (pc + 2)) % 65536
      = byteAt code_inst (pc + 1) * 256 + byteAt code_inst (pc + 2) := by omega
  simp only [this]

theorem s16be_bounds (hi lo : Nat) (h1 : hi < 256) (h2 : lo < 256) :
    -32768 ≤ s16be hi lo ∧ s16be hi lo ≤ 32767 := by
  unfold s16be
  split <;> omega

theorem load_params_snd (stack : List Int) (k : Nat) :
    ∀ (locals_c : List Int) (s_i : Int), (load_params stack k locals_c s_i).2 = s_i - k := by
  induction k with
  | zero => intro locals_c s_i; simp [load_params]
  | succ k ih =>
    intro locals_c s_i
    simp only [load_params, ih]
    push_cast
    ring

theorem loop_succ (cls : class_file_t) (fuel : Nat) (method : method_t) (f : frame) :
    loop cls (fuel + 1) method f =
      if f.curr = i_return then some f
      else
        match body cls (execute cls fuel) method f with
        | none => none
        | some (f1, true) => some f1
        | some (f1, false) => loop cls fuel method f1 := by
  rfl

theorem body_invokestatic (cls : class_file_t)
    (exec : method_t → List Int → heap_t → List Int → Option frame)
    (method : method_t) (f : frame) (hcur : byteAt method.code f.pc = i_invokestatic) :
    body cls exec method f =
      (exec (cls.find_method_from_index (toU2 (operand16 method.code f.pc)))
          (callee_locals (cls.find_method_from_index (toU2 (operand16 method.code f.pc)))
            f.stack f.s_i) f.heap f.out).map
        (fun fc => (finish_call { f with
            curr := i_invokestatic
            s_i := f.s_i -
              (cls.find_method_from_index
                (toU2 (operand16 method.code f.pc))).number_of_parameters } fc, false)) := by
  simp +decide only [body, hcur, callee_locals, load_params_snd, if_false, if_true]
  cases exec (cls.find_method_from_index (toU2 (operand16 method.code f.pc)))
    (load_params f.stack
      (cls.find_method_from_index (toU2 (operand16 method.code f.pc))).number_of_parameters
      (List.replicate (cls.find_method_from_index (toU2 (operand16 method.code f.pc))).max_locals 0)
      f.s_i).1 f.heap f.out <;> rfl

theorem szadd_three (pc n : Nat) (h1 : pc + 2 < n) (h2 : n < 4294967296) :
    szadd pc 3 = pc + 3 :=
  szadd_nat pc 3 (by omega)

theorem toS32_reduces32 (x : Int) : reduces32 x (toS32 x) := by
  unfold reduces32 toS32
  simp only
  split <;> omega

theorem toS32_of_range (x : Int) (h0 : -2147483648 ≤ x) (h1 : x ≤ 2147483647) :
    toS32 x = x := by
  unfold toS32
  simp only
  split <;> omega

theorem body_iadd (cls : class_file_t)
    (exec : method_t → List Int → heap_t → List Int → Option frame)
    (method : method_t) (f : frame) (hcur : byteAt method.code f.pc = i_iadd) :
    body cls exec method f = some ({ f with
      curr := i_iadd
      stack := wr f.stack (f.s_i - 2) (toS32 (rd f.stack (f.s_i - 2) + rd f.stack (f.s_i - 1)))
      s_i := f.s_i - 1
      pc := szadd f.pc 1 }, false) := by
  simp +decide only [body, hcur, if_false, if_true, false_and, and_false, false_or, or_false]

theorem body_isub (cls : class_file_t)
    (exec : method_t → List Int → heap_t → List Int → Option frame)
    (method : method_t) (f : frame) (hcur : byteAt method.code f.pc = i_isub) :
    body cls exec method f = some ({ f with
      curr := i_isub
      stack := wr f.stack (f.s_i - 2) (toS32 (rd f.stack (f.s_i - 2) - rd f.stack (f.s_i - 1)))
      s_i := f.s_i - 1
      pc := szadd f.pc 1 }, false) := by
  simp +decide only [body, hcur, if_false, if_true, false_and, and_false, false_or, or_false]

theorem body_imul (cls : class_file_t)
    (exec : method_t → List Int → heap_t → List Int → Option frame)
    (method : method_t) (f : frame) (hcur : byteAt method.code f.pc = i_imul) :
    body cls exec method f = some ({ f with
      curr := i_imul
      stack := wr f.stack (f.s_i - 2) (toS32 (rd f.stack (f.s_i - 2) * rd f.stack (f.s_i - 1)))
      s_i := f.s_i - 1
      pc := szadd f.pc 1 }, false) := by
  simp +decide only [body, hcur, if_false, if_true, false_and, and_false, false_or, or_false]

theorem body_ineg (cls : class_file_t)
    (exec : method_t → List Int → heap_t → List Int → Option frame)
    (method : method_t) (f : frame) (hcur : byteAt method.code f.pc = i_ineg) :
    body cls exec method f = some ({ f with
      curr := i_ineg
      stack := wr f.stack (f.s_i - 1) (toS32 (-1 * rd f.stack (f.s_i - 1)))
      pc := szadd f.pc 1 }, false) := by
  simp +decide only [body, hcur, if_false, if_true, false_and, and_false, false_or, or_false]

theorem szadd_one (pc n : Nat) (h1 : pc < n) (h2 : n < 4294967296) : szadd pc 1 = pc + 1 :=
  szadd_nat pc 1 (by omega)

theorem body_no_case (cls : class_file_t)
    (exec : method_t → List Int → heap_t → List Int → Option frame)
    (method : method_t) (f : frame) (hst : no_case_matches method f) :
    body cls exec method f = some ({ f with curr := byteAt method.code f.pc }, false) := by
  rcases hst with ⟨hop | hop, hz⟩ | hun
  · simp +decide only [body, hop, hz, if_false, if_true, false_and, and_false, false_or,
      or_false, ne_eq, not_true_eq_false]
  · simp +decide only [body, hop, hz, if_false, if_true, false_and, and_false, false_or,
      or_false, ne_eq, not_true_eq_false]
  · unfold recognised at hun
    simp only [not_or] at hun
    obtain ⟨h0, h1, h2, h3, h4, h5, h6, h7, h8, h9, h10, h11, h12, h13, h14, h15, h16, h17,
      h18, h19, h20, h21, h22, h23, h24, h25, h26, h27, h28, h29, h30, h31, h32, h33, h34,
      h35, h36⟩ := hun
    simp only [body, h1, h2, h3, h4, h5, h6, h7, h8, h9, h10, h11, h12, h13, h14, h15, h16,
      h17, h18, h19, h20, h21, h22, h23, h24, h25, h26, h27, h28, h29, h30, h31, h32, h33,
      h34, h35, h36, if_false, false_and, false_or, or_self]

theorem loop_no_case (cls : class_file_t) (method : method_t) (fuel : Nat) :
    ∀ f : frame, no_case_matches method f → f.curr ≠ i_return →
      loop cls fuel method f = none := by
  induction fuel with
  | zero => intro f _ _; rfl
  | succ n ih =>
    intro f hst hne
    rw [loop_succ, if_neg hne, body_no_case cls _ method f hst]
    simp only
    apply ih
    · exact hst
    · simp only
      rcases hst with ⟨hop | hop, _⟩ | hun
      · rw [hop]; decide
      · rw [hop]; decide
      · intro h
        exact hun (Or.inl h)

theorem shamt_of_range (s : Int) (h0 : 0 ≤ s) (h1 : s ≤ 31) : shamt s = s.toNat := by
  unfold shamt
  omega

theorem reduces32_congr (x y r : Int) (h : reduces32 x r) (hxy : (x - y) % 4294967296 = 0) :
    reduces32 y r := by
  unfold reduces32 at *
  omega

theorem toU32_cast (a : Int) : ((toU32 a : Nat) : Int) = a % 4294967296 := by
  unfold toU32
  omega

theorem body_ishl (cls : class_file_t)
    (exec : method_t → List Int → heap_t → List Int → Option frame)
    (method : method_t) (f : frame) (hcur : byteAt method.code f.pc = i_ishl) :
    body cls exec method f = some ({ f with
      curr := i_ishl
      stack := wr f.stack (f.s_i - 2)
        (toS32 ((toU32 (rd f.stack (f.s_i - 2)) <<< shamt (rd f.stack (f.s_i - 1)) : Nat) : Int))
      s_i := f.s_i - 1
      pc := szadd f.pc 1 }, false) := by
  simp +decide only [body, hcur, if_false, if_true, false_and, and_false, false_or, or_false]

theorem body_ishr (cls : class_file_t)
    (exec : method_t → List Int → heap_t → List Int → Option frame)
    (method : method_t) (f : frame) (hcur : byteAt method.code f.pc = i_ishr) :
    body cls exec method f = some ({ f with
      curr := i_ishr
      stack := wr f.stack (f.s_i - 2)
        (toS32 (rd f.stack (f.s_i - 2) >>> shamt (rd f.stack (f.s_i - 1))))
      s_i := f.s_i - 1
      pc := szadd f.pc 1 }, false) := by
  simp +decide only [body, hcur, if_false, if_true, false_and, and_false, false_or, or_false]

theorem body_iushr (cls : class_file_t)
    (exec : method_t → List Int → heap_t → List Int → Option frame)
    (method : method_t) (f : frame) (hcur : byteAt method.code f.pc = i_iushr) :
    body cls exec method f = some ({ f with
      curr := i_iushr
      stack := wr f.stack (f.s_i - 2)
        (toS32 ((toU32 (rd f.stack (f.s_i - 2)) >>> shamt (rd f.stack (f.s_i - 1)) : Nat) : Int))
      s_i := f.s_i - 1
      pc := szadd f.pc 1 }, false) := by
  simp +decide only [body, hcur, if_false, if_true, false_and, and_false, false_or, or_false]

theorem shl_reduces32 (a : Int) (k : Nat) :
    reduces32 (a * 2 ^ k) (toS32 ((toU32 a <<< k : Nat) : Int)) := by
  apply reduces32_congr _ _ _ (toS32_reduces32 _)
  rw [Nat.shiftLeft_eq]
  push_cast
  rw [toU32_cast]
  apply Int.emod_eq_zero_of_dvd
  refine ⟨-(a / 4294967296) * 2 ^ k, ?_⟩
  have h := Int.emod_def a 4294967296
  rw [h]
  ring

theorem shr_floor (a : Int) (k : Nat) (ha0 : -2147483648 ≤ a) (ha1 : a ≤ 2147483647) :
    toS32 (a >>> k) = Int.fdiv a (2 ^ k) ∧ (a < 0 → toS32 (a >>> k) < 0) := by
  have hp : (0 : Int) < 2 ^ k := by positivity
  have hp1 : (1 : Int) ≤ 2 ^ k := by omega
  rw [Int.shiftRight_eq_div_pow, Int.fdiv_eq_ediv a (le_of_lt hp)]
  have hcast : ((2 ^ k : Nat) : Int) = 2 ^ k := by push_cast; rfl
  rw [hcast]
  rcases le_or_lt 0 a with hpos | hneg
  · have h1 : 0 ≤ a / 2 ^ k := Int.ediv_nonneg hpos (le_of_lt hp)
    have h2 : a / 2 ^ k ≤ a := Int.ediv_le_self _ hpos
    rw [toS32_of_range _ (by omega) (by omega)]
    exact ⟨rfl, fun h => by omega⟩
  · have h1 : a / 2 ^ k < 0 := Int.ediv_neg' hneg hp
    have h2 : a ≤ a / 2 ^ k := by
      apply Int.le_ediv_of_mul_le hp
      exact mul_le_of_one_le_right (le_of_lt hneg) hp1
    rw [toS32_of_range _ (by omega) (by omega)]
    exact ⟨rfl, fun _ => h1⟩

theorem ushr_reduces32 (a : Int) (k : Nat) :
    reduces32 ((a % 4294967296) / 2 ^ k) (toS32 ((toU32 a >>> k : Nat) : Int)) ∧
    (1 ≤ k → 0 ≤ toS32 ((toU32 a >>> k : Nat) : Int) ∧
      toS32 ((toU32 a >>> k : Nat) : Int) = (a % 4294967296) / 2 ^ k) := by
  have hc : ((toU32 a >>> k : Nat) : Int) = (a % 4294967296) / 2 ^ k := by
    rw [Nat.shiftRight_eq_div_pow]
    push_cast
    rw [toU32_cast]
  rw [hc]
  refine ⟨toS32_reduces32 _, fun hk => ?_⟩
  have hlt : toU32 a < 4294967296 := by unfold toU32; omega
  have h2 : 2 ^ 1 ≤ 2 ^ k := Nat.pow_le_pow_right (by norm_num) hk
  have h3 : toU32 a / 2 ^ k ≤ toU32 a / 2 := Nat.div_le_div_left (by simpa using h2) (by norm_num)
  have h4 : ((toU32 a / 2 ^ k : Nat) : Int) = (a % 4294967296) / 2 ^ k := by
    push_cast
    rw [toU32_cast]
  have h5 : (0 : Int) ≤ (a % 4294967296) / 2 ^ k :=
    Int.ediv_nonneg (Int.emod_nonneg _ (by norm_num)) (by positivity)
  have h7 : toU32 a / 2 ^ k ≤ 2147483647 := by omega
  have h8 : ((toU32 a / 2 ^ k : Nat) : Int) ≤ 2147483647 := by exact_mod_cast h7
  have h6 : (a % 4294967296) / 2 ^ k ≤ 2147483647 := by rw [h4] at h8; exact h8
  rw [toS32_of_range _ (by omega) h6]
  exact ⟨h5, rfl⟩

theorem body_store (cls : class_file_t)
    (exec : method_t → List Int → heap_t → List Int → Option frame)
    (method : method_t) (f : frame)
    (hcur : byteAt method.code f.pc = i_istore ∨ byteAt method.code f.pc = i_astore) :
    body cls exec method f = some ({ f with
      curr := byteAt method.code f.pc
      locals := wr f.locals (byteAt method.code (szadd f.pc 1) : Nat) (rd f.stack (f.s_i - 1))
      s_i := f.s_i - 1
      pc := szadd f.pc 2 }, false) := by
  rcases hcur with hcur | hcur <;>
    simp +decide only [body, hcur, if_false, if_true, false_and, and_false, false_or, or_false,
      or_true, true_or]

theorem body_load (cls : class_file_t)
    (exec : method_t → List Int → heap_t → List Int → Option frame)
    (method : method_t) (f : frame)
    (hcur : byteAt method.code f.pc = i_iload ∨ byteAt method.code f.pc = i_aload) :
    body cls exec method f = some ({ f with
      curr := byteAt method.code f.pc
      stack := wr f.stack f.s_i (rd f.locals (byteAt method.code (szadd f.pc 1) : Nat))
      s_i := f.s_i + 1
      pc := szadd f.pc 2 }, false) := by
  rcases hcur with hcur | hcur <;>
    simp +decide only [body, hcur, if_false, if_true, false_and, and_false, false_or, or_false,
      or_true, true_or]

theorem body_store_n (cls : class_file_t)
    (exec : method_t → List Int → heap_t → List Int → Option frame)
    (method : method_t) (f : frame) (k : Nat) (hk : k ≤ 3)
    (hcur : byteAt method.code f.pc = i_istore_0 + k ∨
      byteAt method.code f.pc = i_astore_0 + k) :
    body cls exec method f = some ({ f with
      curr := byteAt method.code f.pc
      locals := wr f.locals (k : Int) (rd f.stack (f.s_i - 1))
      s_i := f.s_i - 1
      pc := szadd f.pc 1 }, false) := by
  rcases hcur with hcur | hcur <;> interval_cases k <;>
    simp +decide only [body, hcur, if_false, if_true, false_and, and_false, false_or, or_false,
      or_true, true_or] <;> rfl

theorem body_load_n (cls : class_file_t)
    (exec : method_t → List Int → heap_t → List Int → Option frame)
    (method : method_t) (f : frame) (k : Nat) (hk : k ≤ 3)
    (hcur : byteAt method.code f.pc = i_iload_0 + k ∨
      byteAt method.code f.pc = i_aload_0 + k) :
    body cls exec method f = some ({ f with
      curr := byteAt method.code f.pc
      stack := wr f.stack f.s_i (rd f.locals (k : Int))
      s_i := f.s_i + 1
      pc := szadd f.pc 1 }, false) := by
  rcases hcur with hcur | hcur <;> interval_cases k <;>
    simp +decide only [body, hcur, if_false, if_true, false_and, and_false, false_or, or_false,
      or_true, true_or] <;> rfl

theorem heap_get_put_same (heap : heap_t) (r : Int) (arr : List Int) (h0 : 0 ≤ r)
    (h1 : r < heap.length) : heap_get (heap_put heap r arr) r = arr := by
  have hlt : r.toNat < heap.length := by omega
  simp [heap_get, heap_put, Int.not_lt.mpr h0, List.getD_eq_getElem?_getD, List.getElem?_set,
    hlt]

theorem heap_get_put_ne (heap : heap_t) (r r1 : Int) (arr : List Int) (h : r ≠ r1) :
    heap_get (heap_put heap r arr) r1 = heap_get heap r1 := by
  unfold heap_get heap_put
  by_cases hj : r1 < 0
  · simp [hj]
  · by_cases hi : r < 0
    · simp [hi]
    · have hne : r.toNat ≠ r1.toNat := by omega
      simp [hj, hi, List.getD_eq_getElem?_getD, List.getElem?_set, hne]

theorem heap_get_append_new (heap : heap_t) (arr : List Int) :
    heap_get (heap ++ [arr]) (heap.length : Int) = arr := by
  unfold heap_get
  simp [List.getD_eq_getElem?_getD]

theorem body_iastore (cls : class_file_t)
    (exec : method_t → List Int → heap_t → List Int → Option frame)
    (method : method_t) (f : frame) (hcur : byteAt method.code f.pc = i_iastore) :
    body cls exec method f = some ({ f with
      curr := i_iastore
      heap := heap_put f.heap (rd f.stack (f.s_i - 3))
        (wr (heap_get f.heap (rd f.stack (f.s_i - 3))) (toS32 (rd f.stack (f.s_i - 2) + 1))
          (rd f.stack (f.s_i - 1)))
      s_i := f.s_i - 3
      pc := szadd f.pc 1 }, false) := by
  simp +decide only [body, hcur, if_false, if_true, false_and, and_false, false_or, or_false]

theorem body_iaload (cls : class_file_t)
    (exec : method_t → List Int → heap_t → List Int → Option frame)
    (method : method_t) (f : frame) (hcur : byteAt method.code f.pc = i_iaload) :
    body cls exec method f = some ({ f with
      curr := i_iaload
      stack := wr f.stack (f.s_i - 2)
        (rd (heap_get f.heap (rd f.stack (f.s_i - 2))) (toS32 (rd f.stack (f.s_i - 1) + 1)))
      s_i := f.s_i - 1
      pc := szadd f.pc 1 }, false) := by
  simp +decide only [body, hcur, if_false, if_true, false_and, and_false, false_or, or_false]

theorem body_newarray (cls : class_file_t)
    (exec : method_t → List Int → heap_t → List Int → Option frame)
    (method : method_t) (f : frame) (hcur : byteAt method.code f.pc = i_newarray) :
    body cls exec method f = some ({ f with
      curr := i_newarray
      heap := f.heap ++
        [wr (List.replicate (toS32 (rd f.stack (f.s_i - 1) + 1)).toNat (0 : Int)) 0
          (rd f.stack (f.s_i - 1))]
      stack := wr f.stack (f.s_i - 1) (f.heap.length : Int)
      pc := szadd f.pc 2 }, false) := by
  simp +decide only [body, hcur, if_false, if_true, false_and, and_false, false_or, or_false,
    heap_add]

theorem body_arraylength (cls : class_file_t)
    (exec : method_t → List Int → heap_t → List Int → Option frame)
    (method : method_t) (f : frame) (hcur : byteAt method.code f.pc = i_arraylength) :
    body cls exec method f = some ({ f with
      curr := i_arraylength
      stack := wr f.stack (f.s_i - 1) (rd (heap_get f.heap (rd f.stack (f.s_i - 1))) 0)
      pc := szadd f.pc 1 }, false) := by
  simp +decide only [body, hcur, if_false, if_true, false_and, and_false, false_or, or_false]

theorem iaload_value (cls : class_file_t)
    (exec : method_t → List Int → heap_t → List Int → Option frame)
    (method : method_t) (f : frame) (r j : Int) (hready : iaload_ready method f r j)
    (hj0 : -1 ≤ j) (hj1 : j < 2147483647) :
    ∃ g, body cls exec method f = some (g, false) ∧ g.s_i = f.s_i - 1 ∧ g.pc = f.pc + 1 ∧
      rd g.stack (f.s_i - 2) = rd (heap_get f.heap r) (j + 1) := by
  obtain ⟨hcur, h2, hcap, hr, hj, hpc, hlen⟩ := hready
  refine ⟨_, body_iaload cls exec method f hcur, rfl, szadd_one _ _ hpc hlen, ?_⟩
  simp only
  rw [rd_wr_same _ _ _ (by omega) (by omega), hr, hj, toS32_of_range _ (by omega) (by omega)]

theorem finish_call_result (f fc : frame) : (finish_call f fc).result = f.result := by
  unfold finish_call
  split <;> rfl

theorem finish_call_curr (f fc : frame) : (finish_call f fc).curr = f.curr := by
  unfold finish_call
  split <;> rfl

theorem body_exec_indep (cls : class_file_t)
    (exec exec1 : method_t → List Int → heap_t → List Int → Option frame)
    (method : method_t) (f : frame) (h : byteAt method.code f.pc ≠ i_invokestatic) :
    body cls exec method f = body cls exec1 method f := by
  simp only [body, h, if_false]

theorem body_mono (cls : class_file_t)
    (exec exec1 : method_t → List Int → heap_t → List Int → Option frame)
    (hle : ∀ child l hp o y, exec child l hp o = some y → exec1 child l hp o = some y)
    (method : method_t) (f : frame) (x : frame × Bool)
    (h : body cls exec method f = some x) : body cls exec1 method f = some x := by
  by_cases hcur : byteAt method.code f.pc = i_invokestatic
  · rw [body_invokestatic cls exec method f hcur] at h
    rw [body_invokestatic cls exec1 method f hcur]
    rw [Option.map_eq_some'] at h
    obtain ⟨y, hy, hx⟩ := h
    rw [hle _ _ _ _ y hy]
    simp only [Option.map_some']
    rw [hx]
  · rw [← body_exec_indep cls exec exec1 method f hcur]
    exact h

theorem loop_mono (cls : class_file_t) (k : Nat) :
    ∀ (n : Nat) (method : method_t) (f g : frame), k ≤ n →
      loop cls k method f = some g → loop cls n method f = some g := by
  induction k with
  | zero =>
    intro n method f g _ h
    simp [loop] at h
  | succ k ih =>
    intro n method f g hkn h
    obtain ⟨n, rfl⟩ : ∃ n1, n = n1 + 1 := ⟨n - 1, by omega⟩
    rw [loop_succ] at h ⊢
    by_cases hret : f.curr = i_return
    · rw [if_pos hret] at h ⊢
      exact h
    · rw [if_neg hret] at h ⊢
      cases hb : body cls (execute cls k) method f with
      | none => rw [hb] at h; simp at h
      | some x =>
        have hb1 := body_mono cls (execute cls k) (execute cls n)
          (fun child l hp o y hy => ih n child _ y (by omega) hy) method f x hb
        rw [hb] at h
        rw [hb1]
        obtain ⟨f1, b⟩ := x
        cases b with
        | true => exact h
        | false => exact ih n method f1 g (by omega) h

theorem body_return (cls : class_file_t)
    (exec : method_t → List Int → heap_t → List Int → Option frame)
    (method : method_t) (f : frame) (hcur : byteAt method.code f.pc = i_return) :
    body cls exec method f = some ({ f with curr := i_return }, false) := by
  simp +decide only [body, hcur, if_false, if_true, false_and, and_false, false_or, or_false]

theorem ite_some_cases {α : Type} (c : Prop) [Decidable c] (t e : Option α) (P : α → Prop)
    (ht : ∀ x, t = some x → P x) (he : ∀ x, e = some x → P x) :
    ∀ x, (if c then t else e) = some x → P x := by
  intro x hx
  split at hx
  · exact ht x hx
  · exact he x hx

theorem body_none_shape (cls : class_file_t) (method : method_t) (f : frame) :
    ∀ x, body cls (fun _ _ _ _ => none) method f = some x →
      x.2 = false → x.1.curr = byteAt method.code f.pc ∧ x.1.result = f.result := by
  simp only [body]
  repeat
    (refine ite_some_cases _ _ _ _
      (by
        intro x hx
        first
          | (cases hx <;>
              first
                | exact fun _ => ⟨rfl, rfl⟩
                | (intro hb; cases hb))
          | (rw [Option.map_eq_some'] at hx
             obtain ⟨q, _, rfl⟩ := hx
             exact fun _ => ⟨rfl, rfl⟩)) ?_)
  intro x hx
  cases hx
  exact fun _ => ⟨rfl, rfl⟩

theorem body_false_frame (cls : class_file_t)
    (exec : method_t → List Int → heap_t → List Int → Option frame)
    (method : method_t) (f g : frame) (h : body cls exec method f = some (g, false)) :
    g.curr = byteAt method.code f.pc ∧ g.result = f.result := by
  by_cases hcur : byteAt method.code f.pc = i_invokestatic
  · rw [body_invokestatic cls exec method f hcur, Option.map_eq_some'] at h
    obtain ⟨y, _, hx⟩ := h
    simp only [Prod.mk.injEq, and_true] at hx
    subst hx
    rw [finish_call_result, finish_call_curr]
    exact ⟨hcur.symm, rfl⟩
  · rw [body_exec_indep cls exec (fun _ _ _ _ => none) method f hcur] at h
    exact body_none_shape cls method f _ h rfl

theorem body_ireturn (cls : class_file_t)
    (exec : method_t → List Int → heap_t → List Int → Option frame)
    (method : method_t) (f : frame)
    (hcur : byteAt method.code f.pc = i_ireturn ∨ byteAt method.code f.pc = i_areturn) :
    body cls exec method f = some ({ f with
      curr := byteAt method.code f.pc
      result := { has_value := true, value := rd f.stack (f.s_i - 1) }
      s_i := f.s_i - 1
      pc := szadd f.pc 1 }, true) := by
  rcases hcur with hcur | hcur <;>
    simp +decide only [body, hcur, if_false, if_true, false_and, and_false, false_or, or_false,
      or_true, true_or]

theorem reaches_invariant (cls : class_file_t) (method : method_t) (locals : List Int)
    (heap : heap_t) (out : List Int) (f : frame)
    (h : reaches cls method (init_frame method locals heap out) f) :
    f.result = { has_value := false, value := 0 } ∧
      (f.curr = i_return → byteAt method.code f.pc = i_return) := by
  induction h with
  | start => exact ⟨rfl, fun h => h⟩
  | pass fuel f g _ hne hbody ih =>
    obtain ⟨hc, hr⟩ := body_false_frame cls _ method f g hbody
    refine ⟨hr.trans ih.1, fun hg => ?_⟩
    have hret : byteAt method.code f.pc = i_return := hc.symm.trans hg
    rw [body_return cls _ method f hret] at hbody
    simp only [Option.some.injEq, Prod.mk.injEq, and_true] at hbody
    subst hbody
    exact hret

theorem reaches_loop (cls : class_file_t) (method : method_t) (f0 f g : frame)
    (h : reaches cls method f0 f) :
    (∃ N, ∀ n, N ≤ n → loop cls n method f = some g) →
      ∃ N, ∀ n, N ≤ n → loop cls n method f0 = some g := by
  induction h with
  | start => exact fun h => h
  | pass fuel f1 g1 _ hne hbody ih =>
    intro hg
    obtain ⟨N, hN⟩ := hg
    apply ih
    refine ⟨max N fuel + 1, fun n hn => ?_⟩
    obtain ⟨n, rfl⟩ : ∃ n1, n = n1 + 1 := ⟨n - 1, by omega⟩
    have hb := body_mono cls (execute cls fuel) (execute cls n)
      (fun child l hp o y hy => loop_mono cls fuel n child _ y (by omega) hy) method f1 _ hbody
    rw [loop_succ, if_neg hne, hb]
    exact hN n (by omega)

theorem toInt8_eq_s8 (b : Nat) (h : b < 256) : toInt8 b = s8 b := by
  unfold toInt8 s8
  have : b % 256 = b := by omega
  simp only [this]

theorem body_bipush (cls : class_file_t)
    (exec : method_t → List Int → heap_t → List Int → Option frame)
    (method : method_t) (f : frame) (hcur : byteAt method.code f.pc = i_bipush) :
    body cls exec method f = some ({ f with
      curr := i_bipush
      stack := wr f.stack f.s_i (toInt8 (byteAt method.code (szadd f.pc 1)))
      pc := szadd f.pc 2
      s_i := f.s_i + 1 }, false) := by
  simp +decide only [body, hcur, if_false, if_true, false_and, and_false, false_or, or_false]

theorem body_sipush (cls : class_file_t)
    (exec : method_t → List Int → heap_t → List Int → Option frame)
    (method : method_t) (f : frame) (hcur : byteAt method.code f.pc = i_sipush) :
    body cls exec method f = some ({ f with
      curr := i_sipush
      stack := wr f.stack f.s_i (toShort (operand16 method.code f.pc))
      s_i := f.s_i + 1
      pc := szadd f.pc 3 }, false) := by
  simp +decide only [body, hcur, if_false, if_true, false_and, and_false, false_or, or_false]

theorem body_iconst (cls : class_file_t)
    (exec : method_t → List Int → heap_t → List Int → Option frame)
    (method : method_t) (f : frame) (k : Int) (hk0 : -1 ≤ k) (hk1 : k ≤ 5)
    (hcur : (byteAt method.code f.pc : Int) = (i_iconst_0 : Int) + k) :
    body cls exec method f = some ({ f with
      curr := byteAt method.code f.pc
      stack := wr f.stack f.s_i k
      s_i := f.s_i + 1
      pc := szadd f.pc 1 }, false) := by
  have hc : byteAt method.code f.pc = (3 + k).toNat := by
    have : (byteAt method.code f.pc : Int) = 3 + k := hcur
    omega
  have hcases : k = -1 ∨ k = 0 ∨ k = 1 ∨ k = 2 ∨ k = 3 ∨ k = 4 ∨ k = 5 := by omega
  rcases hcases with rfl | rfl | rfl | rfl | rfl | rfl | rfl <;>
    simp +decide only [body, hc, if_false, if_true, false_and, and_false, false_or,
      or_false] <;> rfl

theorem body_ldc (cls : class_file_t)
    (exec : method_t → List Int → heap_t → List Int → Option frame)
    (method : method_t) (f : frame) (hcur : byteAt method.code f.pc = i_ldc) :
    body cls exec method f = some ({ f with
      curr := i_ldc
      stack := wr f.stack f.s_i
        (rd cls.constant_pool ((byteAt method.code (szadd f.pc 1) : Int) - 1))
      s_i := f.s_i + 1
      pc := szadd f.pc 2 }, false) := by
  simp +decide only [body, hcur, if_false, if_true, false_and, and_false, false_or, or_false]

theorem loop_step (cls : class_file_t) (fuel : Nat) (method : method_t) (f g : frame)
    (hne : f.curr ≠ i_return)
    (hbody : body cls (execute cls fuel) method f = some (g, false)) :
    loop cls (fuel + 1) method f = loop cls fuel method g := by
  rw [loop_succ, if_neg hne, hbody]

theorem loop_exit (cls : class_file_t) (fuel : Nat) (method : method_t) (f : frame)
    (hret : f.curr = i_return) : loop cls (fuel + 1) method f = some f := by
  rw [loop_succ, if_pos hret]

theorem body_getstatic (cls : class_file_t)
    (exec : method_t → List Int → heap_t → List Int → Option frame)
    (method : method_t) (f : frame) (hcur : byteAt method.code f.pc = i_getstatic) :
    body cls exec method f = some ({ f with curr := i_getstatic, pc := szadd f.pc 3 }, false) := by
  simp +decide only [body, hcur, if_false, if_true, false_and, and_false, false_or, or_false]

theorem body_invokevirtual (cls : class_file_t)
    (exec : method_t → List Int → heap_t → List Int → Option frame)
    (method : method_t) (f : frame) (hcur : byteAt method.code f.pc = i_invokevirtual) :
    body cls exec method f = some ({ f with
      curr := i_invokevirtual
      out := f.out ++ [rd f.stack (f.s_i - 1)]
      s_i := f.s_i - 1
      pc := szadd f.pc 3 }, false) := by
  simp +decide only [body, hcur, if_false, if_true, false_and, and_false, false_or, or_false]

theorem sum_tail (cls : class_file_t) (fuel : Nat) (method : method_t) (f : frame)
    (hne : f.curr ≠ i_return) (hs : f.s_i = 0) (hstack : f.stack = [0, 0]) (hout : f.out = [])
    (hres : f.result = { has_value := false, value := 0 })
    (h0 : byteAt method.code f.pc = 5) (h1 : byteAt method.code (szadd f.pc 1) = 6)
    (h2 : byteAt method.code (szadd (szadd f.pc 1) 1) = i_iadd)
    (h3 : byteAt method.code (szadd (szadd (szadd f.pc 1) 1) 1) = i_invokevirtual)
    (h4 : byteAt method.code (szadd (szadd (szadd (szadd f.pc 1) 1) 1) 3) = i_return) :
    ∃ g, loop cls (fuel + 6) method f = some g ∧ g.result.has_value = false ∧ g.out = [5] ∧
      g.locals = f.locals ∧ g.heap = f.heap := by
  obtain ⟨pc, s_i, stack, curr, locals, heap, out, result⟩ := f
  simp only at hne hs hstack hout hres h0 h1 h2 h3 h4
  subst hs hstack hout hres
  have key : loop cls (fuel + 6) method
      ⟨pc, 0, [0, 0], curr, locals, heap, [], ⟨false, 0⟩⟩
      = some ⟨szadd (szadd (szadd (szadd pc 1) 1) 1) 3, 0, [5, 3], i_return, locals, heap, [5],
          ⟨false, 0⟩⟩ := by
    refine (loop_step cls _ method _ _ hne
      (body_iconst cls _ method _ 2 (by decide) (by decide) ?_)).trans ?_
    · simp only [h0]; rfl
    refine (loop_step cls _ method _ _ ?_
      (body_iconst cls _ method _ 3 (by decide) (by decide) ?_)).trans ?_
    · show byteAt method.code pc ≠ i_return
      rw [h0]
      decide
    · simp only [h1]; rfl
    refine (loop_step cls _ method _ _ ?_ (body_iadd cls _ method _ h2)).trans ?_
    · show byteAt method.code (szadd pc 1) ≠ i_return
      rw [h1]
      decide
    refine (loop_step cls _ method _ _ ?_ (body_invokevirtual cls _ method _ h3)).trans ?_
    · show i_iadd ≠ i_return
      decide
    refine (loop_step cls _ method _ _ ?_ (body_return cls _ method _ h4)).trans ?_
    · show i_invokevirtual ≠ i_return
      decide
    exact loop_exit cls fuel method _ rfl
  exact ⟨_, key, rfl, rfl, rfl, rfl⟩

theorem body_if (cls : class_file_t)
    (exec : method_t → List Int → heap_t → List Int → Option frame)
    (method : method_t) (f : frame) (c : Nat) (hcur : byteAt method.code f.pc = c)
    (h0 : i_ifeq ≤ c) (h1 : c ≤ i_ifle) :
    body cls exec method f = some ({ f with
      curr := c
      pc := jump_one c method.code f.stack f.pc f.s_i
      s_i := f.s_i - 1 }, false) := by
  have h0 : 153 ≤ c := h0
  have h1 : c ≤ 158 := h1
  interval_cases c <;>
    simp +decide only [body, hcur, if_false, if_true, false_and, and_false, false_or, or_false]

theorem body_if_icmp (cls : class_file_t)
    (exec : method_t → List Int → heap_t → List Int → Option frame)
    (method : method_t) (f : frame) (c : Nat) (hcur : byteAt method.code f.pc = c)
    (h0 : i_if_icmpeq ≤ c) (h1 : c ≤ i_if_icmple) :
    body cls exec method f = some ({ f with
      curr := c
      pc := jump_two c method.code f.stack f.pc f.s_i
      s_i := f.s_i - 2 }, false) := by
  have h0 : 159 ≤ c := h0
  have h1 : c ≤ 164 := h1
  interval_cases c <;>
    simp +decide only [body, hcur, if_false, if_true, false_and, and_false, false_or, or_false]

theorem body_goto (cls : class_file_t)
    (exec : method_t → List Int → heap_t → List Int → Option frame)
    (method : method_t) (f : frame) (hcur : byteAt method.code f.pc = i_goto) :
    body cls exec method f = some ({ f with
      curr := i_goto
      pc := szadd f.pc (toShort (operand16 method.code f.pc)) }, false) := by
  simp +decide only [body, hcur, if_false, if_true, false_and, and_false, false_or, or_false]

theorem body_iinc (cls : class_file_t)
    (exec : method_t → List Int → heap_t → List Int → Option frame)
    (method : method_t) (f : frame) (hcur : byteAt method.code f.pc = i_iinc) :
    body cls exec method f = some ({ f with
      curr := i_iinc
      locals := wr f.locals (byteAt method.code (szadd f.pc 1) : Nat)
        (toS32 (rd f.locals (byteAt method.code (szadd f.pc 1) : Nat)
          + toInt8 (byteAt method.code (szadd f.pc 2))))
      pc := szadd f.pc 3 }, false) := by
  simp +decide only [body, hcur, if_false, if_true, false_and, and_false, false_or, or_false]

theorem toS32_congr (x y : Int) (h : x % 4294967296 = y % 4294967296) : toS32 x = toS32 y := by
  unfold toS32
  simp only [h]

theorem toS32_mul_toS32 (a b : Int) : toS32 (a * toS32 b) = toS32 (a * b) := by
  apply toS32_congr
  have hb : toS32 b % 4294967296 = b % 4294967296 := by
    unfold toS32
    simp only
    split <;> omega
  rw [Int.mul_emod, hb, ← Int.mul_emod]

theorem fact_jump (n : Int) (stack : List Int) (h1 : rd stack 0 = n) :
    jump_one i_ifgt fact_method.code stack 1 1 = if 0 < n then 6 else 4 := by
  have e1 : szadd 1 (toShort (operand16 fact_method.code 1)) = 6 := by decide
  have e2 : szadd 1 3 = 4 := by decide
  by_cases hn : 0 < n
  · simp +decide [jump_one, h1, e1, e2, hn]
  · simp +decide [jump_one, h1, e1, e2, hn]


theorem loop_bounded_succ (cls : class_file_t) (depth fuel : Nat) (method : method_t)
    (f : frame) :
    loop_bounded cls depth (fuel + 1) method f =
      if f.curr = i_return then some f
      else
        match body cls (nested_call cls depth fuel) method f with
        | none => none
        | some (f1, true) => some f1
        | some (f1, false) => loop_bounded cls depth fuel method f1 := by
  rfl

theorem loop_bounded_zero (cls : class_file_t) (depth : Nat) (method : method_t) (f : frame) :
    loop_bounded cls depth 0 method f = none := by
  rfl

theorem loop_bounded_step (cls : class_file_t) (depth fuel : Nat) (method : method_t)
    (f g : frame) (hne : f.curr ≠ i_return)
    (hbody : body cls (nested_call cls depth fuel) method f = some (g, false)) :
    loop_bounded cls depth (fuel + 1) method f = loop_bounded cls depth fuel method g := by
  rw [loop_bounded_succ, if_neg hne, hbody]

theorem loop_bounded_exit (cls : class_file_t) (depth fuel : Nat) (method : method_t)
    (f : frame) (hret : f.curr = i_return) :
    loop_bounded cls depth (fuel + 1) method f = some f := by
  rw [loop_bounded_succ, if_pos hret]

theorem loop_bounded_mono (cls : class_file_t) (k : Nat) :
    ∀ (n D E : Nat) (method : method_t) (f g : frame), k ≤ n → D ≤ E →
      loop_bounded cls D k method f = some g → loop_bounded cls E n method f = some g := by
  induction k with
  | zero =>
    intro n D E method f g _ _ h
    rw [loop_bounded_zero] at h
    simp at h
  | succ k ih =>
    intro n D E method f g hkn hDE h
    obtain ⟨n, rfl⟩ : ∃ n1, n = n1 + 1 := ⟨n - 1, by omega⟩
    rw [loop_bounded_succ] at h ⊢
    by_cases hret : f.curr = i_return
    · rw [if_pos hret] at h ⊢
      exact h
    · rw [if_neg hret] at h ⊢
      cases hb : body cls (nested_call cls D k) method f with
      | none => rw [hb] at h; simp at h
      | some x =>
        have hb1 := body_mono cls (nested_call cls D k) (nested_call cls E n)
          (fun child l hp o y hy => by
            cases D with
            | zero => simp [nested_call] at hy
            | succ d =>
              obtain ⟨e, rfl⟩ : ∃ e, E = e + 1 := ⟨E - 1, by omega⟩
              exact ih n d e child _ y (by omega) (by omega) hy) method f x hb
        rw [hb] at h
        rw [hb1]
        obtain ⟨f1, b⟩ := x
        cases b with
        | true => exact h
        | false => exact ih n D E method f1 g (by omega) hDE h

theorem loop_bounded_sound (cls : class_file_t) (k : Nat) :
    ∀ (D : Nat) (method : method_t) (f g : frame),
      loop_bounded cls D k method f = some g → loop cls k method f = some g := by
  induction k with
  | zero =>
    intro D method f g h
    rw [loop_bounded_zero] at h
    simp at h
  | succ k ih =>
    intro D method f g h
    rw [loop_bounded_succ] at h
    rw [loop_succ]
    by_cases hret : f.curr = i_return
    · rw [if_pos hret] at h ⊢
      exact h
    · rw [if_neg hret] at h ⊢
      cases hb : body cls (nested_call cls D k) method f with
      | none => rw [hb] at h; simp at h
      | some x =>
        have hb1 := body_mono cls (nested_call cls D k) (execute cls k)
          (fun child l hp o y hy => by
            cases D with
            | zero => simp [nested_call] at hy
            | succ d => exact ih d child _ y hy) method f x hb
        rw [hb] at h
        rw [hb1]
        obtain ⟨f1, b⟩ := x
        cases b with
        | true => exact h
        | false => exact ih D method f1 g h

theorem fact_base (cls : class_file_t) (D : Nat) (n : Int) (hn : n ≤ 0) (heap : heap_t)
    (out : List Int) (fuel : Nat) :
    ∃ g, execute_bounded cls D (fuel + 4) fact_method [n] heap out = some g ∧
      g.result = { has_value := true, value := 1 } ∧ g.heap = heap ∧ g.out = out := by
  have key : loop_bounded cls D (fuel + 4) fact_method
      (fact_frame 0 0 [0, 0, 0] i_iload_0 n heap out)
      = some { fact_frame 6 0 [1, 0, 0] i_ireturn n heap out with
          result := { has_value := true, value := 1 } } := by
    refine (loop_bounded_step cls D _ fact_method _
      (fact_frame 1 1 [n, 0, 0] i_iload_0 n heap out)
      (by show i_iload_0 ≠ i_return; decide)
      ((body_load_n cls _ fact_method (fact_frame 0 0 [0, 0, 0] i_iload_0 n heap out) 0
        (by decide) (Or.inl rfl)).trans rfl)).trans ?_
    refine (loop_bounded_step cls D _ fact_method _
      (fact_frame 4 0 [n, 0, 0] i_ifgt n heap out)
      (by show i_iload_0 ≠ i_return; decide)
      ((body_if cls _ fact_method (fact_frame 1 1 [n, 0, 0] i_iload_0 n heap out) i_ifgt rfl
        (by decide) (by decide)).trans ?_)).trans ?_
    · have hj := fact_jump n [n, 0, 0] rfl
      rw [if_neg (not_lt.mpr hn)] at hj
      show some (({ fact_frame 1 1 [n, 0, 0] i_iload_0 n heap out with
          curr := i_ifgt
          pc := jump_one i_ifgt fact_method.code [n, 0, 0] 1 1
          s_i := 1 - 1 } : frame), false) = _
      rw [hj]
      rfl
    refine (loop_bounded_step cls D _ fact_method _ (fact_frame 5 1 [1, 0, 0] 4 n heap out)
      (by show i_ifgt ≠ i_return; decide)
      ((body_iconst cls _ fact_method (fact_frame 4 0 [n, 0, 0] i_ifgt n heap out) 1
        (by decide) (by decide) rfl).trans rfl)).trans ?_
    rw [loop_bounded_succ, if_neg (by show (4 : Nat) ≠ i_return; decide),
      body_ireturn cls _ fact_method (fact_frame 5 1 [1, 0, 0] 4 n heap out) (Or.inl rfl)]
    rfl
  exact ⟨_, key, rfl, rfl, rfl⟩

theorem fact_descent (cls : class_file_t) (D : Nat) (n : Int) (hn0 : 0 < n)
    (hn1 : n ≤ 2147483647) (heap : heap_t) (out : List Int) (fuel : Nat) :
    loop_bounded cls D (fuel + 6) fact_method (fact_frame 0 0 [0, 0, 0] i_iload_0 n heap out)
      = loop_bounded cls D fuel fact_method
          (fact_frame 10 2 [n, n - 1, 1] i_isub n heap out) := by
  have hs : toS32 (n - 1) = n - 1 := toS32_of_range _ (by omega) (by omega)
  refine (loop_bounded_step cls D _ fact_method _
    (fact_frame 1 1 [n, 0, 0] i_iload_0 n heap out)
    (by show i_iload_0 ≠ i_return; decide)
    ((body_load_n cls _ fact_method (fact_frame 0 0 [0, 0, 0] i_iload_0 n heap out) 0
      (by decide) (Or.inl rfl)).trans rfl)).trans ?_
  refine (loop_bounded_step cls D _ fact_method _
    (fact_frame 6 0 [n, 0, 0] i_ifgt n heap out)
    (by show i_iload_0 ≠ i_return; decide)
    ((body_if cls _ fact_method (fact_frame 1 1 [n, 0, 0] i_iload_0 n heap out) i_ifgt rfl
      (by decide) (by decide)).trans ?_)).trans ?_
  · have hj := fact_jump n [n, 0, 0] rfl
    rw [if_pos hn0] at hj
    show some (({ fact_frame 1 1 [n, 0, 0] i_iload_0 n heap out with
        curr := i_ifgt
        pc := jump_one i_ifgt fact_method.code [n, 0, 0] 1 1
        s_i := 1 - 1 } : frame), false) = _
    rw [hj]
    rfl
  refine (loop_bounded_step cls D _ fact_method _
    (fact_frame 7 1 [n, 0, 0] i_iload_0 n heap out)
    (by show i_ifgt ≠ i_return; decide)
    ((body_load_n cls _ fact_method (fact_frame 6 0 [n, 0, 0] i_ifgt n heap out) 0
      (by decide) (Or.inl rfl)).trans rfl)).trans ?_
  refine (loop_bounded_step cls D _ fact_method _
    (fact_frame 8 2 [n, n, 0] i_iload_0 n heap out)
    (by show i_iload_0 ≠ i_return; decide)
    ((body_load_n cls _ fact_method (fact_frame 7 1 [n, 0, 0] i_iload_0 n heap out) 0
      (by decide) (Or.inl rfl)).trans rfl)).trans ?_
  refine (loop_bounded_step cls D _ fact_method _ (fact_frame 9 3 [n, n, 1] 4 n heap out)
    (by show i_iload_0 ≠ i_return; decide)
    ((body_iconst cls _ fact_method (fact_frame 8 2 [n, n, 0] i_iload_0 n heap out) 1
      (by decide) (by decide) rfl).trans rfl)).trans ?_
  refine loop_bounded_step cls D _ fact_method _
    (fact_frame 10 2 [n, n - 1, 1] i_isub n heap out)
    (by show (4 : Nat) ≠ i_return; decide)
    ((body_isub cls _ fact_method (fact_frame 9 3 [n, n, 1] 4 n heap out) rfl).trans ?_)
  show some (({ fact_frame 9 3 [n, n, 1] 4 n heap out with
      curr := i_isub
      stack := wr [n, n, 1] 1 (toS32 (n - 1))
      s_i := 3 - 1
      pc := szadd 9 1 } : frame), false) = _
  rw [hs]
  rfl

theorem fact_call (cls : class_file_t) (hres : cls.find_method_from_index 1 = fact_method)
    (exec : method_t → List Int → heap_t → List Int → Option frame)
    (n : Int) (heap : heap_t) (out : List Int) :
    body cls exec fact_method (fact_frame 10 2 [n, n - 1, 1] i_isub n heap out)
      = (exec fact_method [n - 1] heap out).map fun fc =>
          (finish_call { fact_frame 10 2 [n, n - 1, 1] i_isub n heap out with
            curr := i_invokestatic, s_i := 1 } fc, false) := by
  have hb := body_invokestatic cls exec fact_method
    (fact_frame 10 2 [n, n - 1, 1] i_isub n heap out) rfl
  have hchild : cls.find_method_from_index (toU2 (operand16 fact_method.code
      (fact_frame 10 2 [n, n - 1, 1] i_isub n heap out).pc)) = fact_method := by
    have hidx : toU2 (operand16 fact_method.code 10) = 1 := by decide
    show cls.find_method_from_index (toU2 (operand16 fact_method.code 10)) = fact_method
    rw [hidx]
    exact hres
  rw [hchild] at hb
  exact hb

theorem fact_rec (cls : class_file_t) (hres : cls.find_method_from_index 1 = fact_method)
    (D : Nat) (n : Int) (hn0 : 0 < n) (hn1 : n ≤ 2147483647) (heap : heap_t) (out : List Int)
    (fuel : Nat) (fc : frame) (v : Int)
    (hcall : nested_call cls D (fuel + 2) fact_method [n - 1] heap out = some fc)
    (hv : fc.result = { has_value := true, value := v }) (hh : fc.heap = heap)
    (ho : fc.out = out) :
    ∃ g, execute_bounded cls D (fuel + 9) fact_method [n] heap out = some g ∧
      g.result = { has_value := true, value := toS32 (n * v) } ∧ g.heap = heap ∧ g.out = out := by
  have key : loop_bounded cls D (fuel + 9) fact_method
      (fact_frame 0 0 [0, 0, 0] i_iload_0 n heap out)
      = some { fact_frame 15 0 [toS32 (n * v), v, 1] i_ireturn n heap out with
          result := { has_value := true, value := toS32 (n * v) } } := by
    refine (fact_descent cls D n hn0 hn1 heap out (fuel + 3)).trans ?_
    have hb := fact_call cls hres (nested_call cls D (fuel + 2)) n heap out
    rw [hcall, Option.map_some'] at hb
    refine (loop_bounded_step cls D _ fact_method _
      (fact_frame 13 2 [n, v, 1] i_invokestatic n heap out)
      (by show i_isub ≠ i_return; decide) (hb.trans ?_)).trans ?_
    · unfold finish_call
      simp only [hv, hh, ho, if_true]
      rfl
    refine (loop_bounded_step cls D _ fact_method _
      (fact_frame 14 1 [toS32 (n * v), v, 1] i_imul n heap out)
      (by show i_invokestatic ≠ i_return; decide)
      ((body_imul cls _ fact_method (fact_frame 13 2 [n, v, 1] i_invokestatic n heap out)
        rfl).trans rfl)).trans ?_
    rw [loop_bounded_succ, if_neg (by show i_imul ≠ i_return; decide),
      body_ireturn cls _ fact_method (fact_frame 14 1 [toS32 (n * v), v, 1] i_imul n heap out)
        (Or.inl rfl)]
    rfl
  exact ⟨_, key, rfl, rfl, rfl⟩

theorem fact_nat (cls : class_file_t) (hres : cls.find_method_from_index 1 = fact_method)
    (k : Nat) :
    k ≤ 2147483647 → ∀ (D : Nat), k ≤ D → ∀ (heap : heap_t) (out : List Int),
      ∃ g, execute_bounded cls D (7 * k + 4) fact_method [(k : Int)] heap out = some g ∧
        g.result = { has_value := true, value := toS32 ((Nat.factorial k : Nat) : Int) } ∧
        g.heap = heap ∧ g.out = out := by
  induction k with
  | zero =>
    intro _ D _ heap out
    exact fact_base cls D 0 (le_refl _) heap out 0
  | succ k ih =>
    intro hk D hD heap out
    obtain ⟨d, rfl⟩ : ∃ d, D = d + 1 := ⟨D - 1, by omega⟩
    obtain ⟨fc, h1, h2, h3, h4⟩ := ih (by omega) d (by omega) heap out
    have hsub : ((k + 1 : Nat) : Int) - 1 = (k : Int) := by
      push_cast
      ring
    have hfuel : 7 * k + 4 = (7 * k + 2) + 2 := by ring
    rw [hfuel, ← hsub] at h1
    obtain ⟨g, e1, e2, e3, e4⟩ := fact_rec cls hres (d + 1) ((k + 1 : Nat) : Int) (by omega)
      (by omega) heap out (7 * k + 2) fc _ h1 h2 h3 h4
    have hfuel2 : 7 * (k + 1) + 4 = (7 * k + 2) + 9 := by ring
    refine ⟨g, by rw [hfuel2]; exact e1, ?_, e3, e4⟩
    rw [e2, toS32_mul_toS32, Nat.factorial_succ]
    push_cast
    rfl

theorem fact_needs_depth (cls : class_file_t)
    (hres : cls.find_method_from_index 1 = fact_method) (D : Nat) :
    ∀ (fuel : Nat) (n : Int) (heap : heap_t) (out : List Int) (g : frame), 0 < n →
      n ≤ 2147483647 → execute_bounded cls D fuel fact_method [n] heap out = some g →
      n ≤ (D : Int) := by
  induction D with
  | zero =>
    intro fuel n heap out g hn0 hn1 h
    have h7 := loop_bounded_mono cls fuel (fuel + 1 + 6) 0 0 fact_method _ g (by omega)
      (le_refl _) h
    have hp := fact_descent cls 0 n hn0 hn1 heap out (fuel + 1)
    rw [show loop_bounded cls 0 (fuel + 1 + 6) fact_method
        (init_frame fact_method [n] heap out) = _ from hp, loop_bounded_succ,
      if_neg (by show i_isub ≠ i_return; decide), fact_call cls hres] at h7
    simp [nested_call] at h7
  | succ d ih =>
    intro fuel n heap out g hn0 hn1 h
    have h7 := loop_bounded_mono cls fuel (fuel + 1 + 6) (d + 1) (d + 1) fact_method _ g
      (by omega) (le_refl _) h
    have hp := fact_descent cls (d + 1) n hn0 hn1 heap out (fuel + 1)
    rw [show loop_bounded cls (d + 1) (fuel + 1 + 6) fact_method
        (init_frame fact_method [n] heap out) = _ from hp, loop_bounded_succ,
      if_neg (by show i_isub ≠ i_return; decide), fact_call cls hres] at h7
    cases hc : nested_call cls (d + 1) fuel fact_method [n - 1] heap out with
    | none =>
      rw [hc] at h7
      simp at h7
    | some fc =>
      rcases le_or_lt (n - 1) 0 with h0 | h0
      · push_cast
        omega
      · have := ih fuel (n - 1) heap out fc h0 (by omega) hc
        push_cast
        omega

/-! ## The claims -/

/-- Claim C1: for each of the six one-operand branch opcodes, with `a = stack[h - 1]`
and `off` the signed 16-bit value of the big-endian pair `code[pc + 1]`, `code[pc + 2]`,
and `pc + off ≥ 0`, `jump_one` returns `pc + off` when the opcode's predicate holds of `a`
against zero and `pc + 3` otherwise.  The operand `a` and the offset are arbitrary, so
backward offsets and the boundary operands are covered. -/
theorem jump_one_contract (code_inst : List u1) (stack : List Int) (pc : Nat) (h a off : Int)
    (_hh : 1 ≤ h) (hpc : pc + 2 < code_inst.length) (hlen : code_inst.length < 4294967296)
    (ha : a = rd stack (h - 1))
    (hoff : off = s16be (byteAt code_inst (pc + 1)) (byteAt code_inst (pc + 2)))
    (hpos : 0 ≤ (pc : Int) + off) :
    ((jump_one i_ifeq code_inst stack pc h : Int) = if a = 0 then (pc : Int) + off else pc + 3) ∧
    ((jump_one i_ifne code_inst stack pc h : Int) = if a ≠ 0 then (pc : Int) + off else pc + 3) ∧
    ((jump_one i_iflt code_inst stack pc h : Int) = if a < 0 then (pc : Int) + off else pc + 3) ∧
    ((jump_one i_ifge code_inst stack pc h : Int) = if a ≥ 0 then (pc : Int) + off else pc + 3) ∧
    ((jump_one i_ifgt code_inst stack pc h : Int) = if a > 0 then (pc : Int) + off else pc + 3) ∧
    ((jump_one i_ifle code_inst stack pc h : Int) = if a ≤ 0 then (pc : Int) + off else pc + 3) := by
  have hb := s16be_bounds _ _ (byteAt_lt code_inst (pc + 1)) (byteAt_lt code_inst (pc + 2))
  have hs : toShort (operand16 code_inst pc) = off := by
    rw [hoff]; exact toShort_operand16 code_inst pc (by omega)
  have hj : (szadd pc (toShort (operand16 code_inst pc)) : Int) = (pc : Int) + off := by
    rw [hs]; exact szadd_int pc off hpos (by omega)
  have h3 : (szadd pc 3 : Int) = (pc : Int) + 3 := szadd_int pc 3 (by omega) (by omega)
  subst ha
  refine ⟨?_, ?_, ?_, ?_, ?_, ?_⟩ <;>
  · simp only [jump_one]
    split_ifs <;> simp_all

/-- Witness of C1: a backward offset of -3 at `pc = 3` with the operand `INT32_MIN`. -/
theorem jump_one_contract_witness :
    ((jump_one i_iflt [0, 0, 0, 0x9b, 0xff, 0xfd] [-2147483648] 3 1 : Nat) : Int) = 0 ∧
    ((jump_one i_ifge [0, 0, 0, 0x9b, 0xff, 0xfd] [-2147483648] 3 1 : Nat) : Int) = 6 := by
  have h := jump_one_contract [0, 0, 0, 0x9b, 0xff, 0xfd] [-2147483648] 3 1 (-2147483648) (-3)
    (by decide) (by decide) (by decide) (by decide) (by decide) (by decide)
  exact ⟨by simpa using h.2.2.1, by simpa using h.2.2.2.1⟩

/-- Claim C2: for each of the six two-operand branch opcodes, with `a = stack[h - 2]`,
`b = stack[h - 1]` and `off` the signed 16-bit value of the big-endian pair
`code[pc + 1]`, `code[pc + 2]`, and `pc + off ≥ 0`, `jump_two` returns `pc + off` when
`a predicate b` holds and `pc + 3` otherwise. -/
theorem jump_two_contract (code_inst : List u1) (stack : List Int) (pc : Nat) (h a b off : Int)
    (_hh : 2 ≤ h) (hpc : pc + 2 < code_inst.length) (hlen : code_inst.length < 4294967296)
    (ha : a = rd stack (h - 2)) (hb : b = rd stack (h - 1))
    (hoff : off = s16be (byteAt code_inst (pc + 1)) (byteAt code_inst (pc + 2)))
    (hpos : 0 ≤ (pc : Int) + off) :
    ((jump_two i_if_icmpeq code_inst stack pc h : Int)
      = if a = b then (pc : Int) + off else pc + 3) ∧
    ((jump_two i_if_icmpne code_inst stack pc h : Int)
      = if a ≠ b then (pc : Int) + off else pc + 3) ∧
    ((jump_two i_if_icmplt code_inst stack pc h : Int)
      = if a < b then (pc : Int) + off else pc + 3) ∧
    ((jump_two i_if_icmpge code_inst stack pc h : Int)
      = if a ≥ b then (pc : Int) + off else pc + 3) ∧
    ((jump_two i_if_icmpgt code_inst stack pc h : Int)
      = if a > b then (pc : Int) + off else pc + 3) ∧
    ((jump_two i_if_icmple code_inst stack pc h : Int)
      = if a ≤ b then (pc : Int) + off else pc + 3) := by
  have hbd := s16be_bounds _ _ (byteAt_lt code_inst (pc + 1)) (byteAt_lt code_inst (pc + 2))
  have hs : toShort (operand16 code_inst pc) = off := by
    rw [hoff]; exact toShort_operand16 code_inst pc (by omega)
  have hj : (szadd pc (toShort (operand16 code_inst pc)) : Int) = (pc : Int) + off := by
    rw [hs]; exact szadd_int pc off hpos (by omega)
  have h3 : (szadd pc 3 : Int) = (pc : Int) + 3 := szadd_int pc 3 (by omega) (by omega)
  subst ha hb
  refine ⟨?_, ?_, ?_, ?_, ?_, ?_⟩ <;>
  · simp only [jump_two]
    split_ifs <;> simp_all

/-- Witness of C2: a backward offset of -2 at `pc = 2` with the operands `INT32_MAX`
and `INT32_MIN`. -/
theorem jump_two_contract_witness :
    ((jump_two i_if_icmplt [0, 0, 0xa1, 0xff, 0xfe, 0] [7, 2147483647, -2147483648] 2 3 : Nat)
      : Int) = 5 ∧
    ((jump_two i_if_icmpgt [0, 0, 0xa1, 0xff, 0xfe, 0] [7, 2147483647, -2147483648] 2 3 : Nat)
      : Int) = 0 := by
  have h := jump_two_contract [0, 0, 0xa1, 0xff, 0xfe, 0] [7, 2147483647, -2147483648] 2 3
    2147483647 (-2147483648) (-2)
    (by decide) (by decide) (by decide) (by decide) (by decide) (by decide) (by decide)
  exact ⟨by simpa using h.2.2.1, by simpa using h.2.2.2.2.1⟩

/-- Claim C3, refuted as stated: with two parameters the callee's slot 0 does not hold the
last pushed argument.  The caller pushes 10 and then 20; slot 0 of the callee's locals
holds 10, and the program, whose callee returns its slot 0, prints 10. -/
theorem invokestatic_last_arg_not_in_slot_zero :
    rd (callee_locals first_param_method [10, 20] 2) 0 = 10 ∧
    rd [10, 20] (2 - 1) = 20 ∧
    rd (callee_locals first_param_method [10, 20] 2) 0 ≠ rd [10, 20] (2 - 1) ∧
    (execute two_arg_class 10 two_arg_caller [] [] []).map frame.out = some [10] := by
  decide

/-- Claim C3, amended: when `invokestatic` calls a method with `N ≥ 1` declared parameters
and `max_locals ≥ N`, the callee is executed on a locals array whose highest parameter
slot `N - 1` holds the last pushed argument (the caller's top of stack) and whose slot 0
holds the first pushed argument `stack[h - N]`. -/
theorem invokestatic_argument_placement (cls : class_file_t) (fuel : Nat) (method : method_t)
    (f : frame) (child : method_t) (N : Nat)
    (hcur : byteAt method.code f.pc = i_invokestatic)
    (hchild : child = cls.find_method_from_index (toU2 (operand16 method.code f.pc)))
    (hN : child.number_of_parameters = N) (hpos : 1 ≤ N) (hNM : N ≤ child.max_locals) :
    body cls (execute cls fuel) method f =
        (execute cls fuel child (callee_locals child f.stack f.s_i) f.heap f.out).map
          (fun fc => (finish_call { f with curr := i_invokestatic, s_i := f.s_i - N } fc, false)) ∧
      rd (callee_locals child f.stack f.s_i) ((N : Int) - 1) = rd f.stack (f.s_i - 1) ∧
      rd (callee_locals child f.stack f.s_i) 0 = rd f.stack (f.s_i - N) := by
  subst hchild hN
  refine ⟨body_invokestatic cls _ method f hcur, ?_, ?_⟩
  · have h := (load_params_spec f.stack _ (List.replicate _ 0) f.s_i
      (by simpa using hNM)).2.2.1 (_ - 1) (Nat.sub_lt hpos Nat.one_pos)
    unfold callee_locals
    rw [Nat.cast_sub hpos] at h
    rw [Nat.cast_one] at h
    rw [h]
    congr 1
    ring
  · have h := (load_params_spec f.stack _ (List.replicate _ 0) f.s_i
      (by simpa using hNM)).2.2.1 0 hpos
    unfold callee_locals
    rw [Nat.cast_zero] at h
    rw [h]
    congr 1
    ring

/-- Witness of the amended C3: the call of `first_param_method` from `two_arg_frame`. -/
theorem invokestatic_argument_placement_witness :
    rd (callee_locals first_param_method two_arg_frame.stack 2) 1 = 20 ∧
    rd (callee_locals first_param_method two_arg_frame.stack 2) 0 = 10 := by
  have h := invokestatic_argument_placement two_arg_class 5 two_arg_caller two_arg_frame
    first_param_method 2 (by decide) (by rfl) (by rfl) (by decide) (by decide)
  exact ⟨by simpa [two_arg_frame] using h.2.1, by simpa [two_arg_frame] using h.2.2⟩

/-- Claim C4: when `invokestatic` calls a method with `N` declared parameters and
`max_locals = M ≥ N`, the callee is executed on a locals array of `M` slots in which slot
`i < N` holds the `i`-th pushed argument `stack[h - N + i]` and every slot `N..M-1`
holds 0. -/
theorem invokestatic_callee_locals (cls : class_file_t) (fuel : Nat) (method : method_t)
    (f : frame) (child : method_t) (N M : Nat)
    (hcur : byteAt method.code f.pc = i_invokestatic)
    (hchild : child = cls.find_method_from_index (toU2 (operand16 method.code f.pc)))
    (hN : child.number_of_parameters = N) (hM : child.max_locals = M) (hNM : N ≤ M) :
    body cls (execute cls fuel) method f =
        (execute cls fuel child (callee_locals child f.stack f.s_i) f.heap f.out).map
          (fun fc => (finish_call { f with curr := i_invokestatic, s_i := f.s_i - N } fc, false)) ∧
      (init_frame child (callee_locals child f.stack f.s_i) f.heap f.out).locals
        = callee_locals child f.stack f.s_i ∧
      (callee_locals child f.stack f.s_i).length = M ∧
      (∀ i : Nat, i < N →
        rd (callee_locals child f.stack f.s_i) i = rd f.stack (f.s_i - N + i)) ∧
      (∀ j : Nat, N ≤ j → j < M → rd (callee_locals child f.stack f.s_i) j = 0) := by
  subst hchild hN hM
  have h := load_params_spec f.stack _ (List.replicate _ 0) f.s_i (by simpa using hNM)
  refine ⟨body_invokestatic cls _ method f hcur, rfl, ?_, ?_, ?_⟩
  · unfold callee_locals
    rw [h.2.1]
    simp
  · intro i hi
    exact h.2.2.1 i hi
  · intro j hj _
    unfold callee_locals
    rw [h.2.2.2 (j : Int) (by exact_mod_cast hj)]
    exact rd_replicate_zero _ _

/-- Witness of C4: the call of `first_param_method` from `two_arg_frame`. -/
theorem invokestatic_callee_locals_witness :
    (callee_locals first_param_method two_arg_frame.stack two_arg_frame.s_i).length = 2 ∧
    rd (callee_locals first_param_method two_arg_frame.stack two_arg_frame.s_i) 0 = 10 ∧
    rd (callee_locals first_param_method two_arg_frame.stack two_arg_frame.s_i) 1 = 20 := by
  have h := invokestatic_callee_locals two_arg_class 5 two_arg_caller two_arg_frame
    first_param_method 2 2 (by decide) (by rfl) (by rfl) (by rfl) (by decide)
  have h0 := h.2.2.2.1 0 (by decide)
  have h1 := h.2.2.2.1 1 (by decide)
  exact ⟨h.2.2.1, by simpa [two_arg_frame] using h0, by simpa [two_arg_frame] using h1⟩

/-- Claim C5: if `invokestatic` executes at caller height `h ≥ N` against a target with
`N` parameters whose execution terminates with the frame `fc`, and slot `h - N` lies
within the stack whenever the callee returned a value, the pass through the loop body
ends in a caller frame `g` from which the loop goes on, with `pc` advanced by 3, the
locals and the stack slots below `h - N` unchanged, and height `h - N` (on an untouched
stack) when the callee returned no value, or `h - N + 1` with the returned value in slot
`h - N` of the stack when it did. -/
theorem invokestatic_caller_state (cls : class_file_t) (fuel : Nat) (method : method_t)
    (f fc : frame) (child : method_t) (N : Nat) (h : Int)
    (hcur : byteAt method.code f.pc = i_invokestatic)
    (hchild : child = cls.find_method_from_index (toU2 (operand16 method.code f.pc)))
    (hN : child.number_of_parameters = N)
    (hh : f.s_i = h) (hge : (N : Int) ≤ h)
    (hpc : f.pc + 2 < method.code.length) (hlen : method.code.length < 4294967296)
    (hret : execute cls fuel child (callee_locals child f.stack h) f.heap f.out = some fc)
    (hroom : fc.result.has_value = true → h - N < f.stack.length) :
    ∃ g : frame,
      body cls (execute cls fuel) method f = some (g, false) ∧
      (f.curr ≠ i_return → loop cls (fuel + 1) method f = loop cls fuel method g) ∧
      g.pc = f.pc + 3 ∧
      g.locals = f.locals ∧
      (∀ j : Int, j < h - N → rd g.stack j = rd f.stack j) ∧
      (fc.result.has_value = false → g.s_i = h - N ∧ g.stack = f.stack) ∧
      (fc.result.has_value = true → g.s_i = h - N + 1 ∧
        rd g.stack (h - N) = fc.result.value) := by
  subst hchild hN hh
  have hb := body_invokestatic cls (execute cls fuel) method f hcur
  rw [hret] at hb
  simp only [Option.map_some'] at hb
  have h3 := szadd_three f.pc _ hpc hlen
  refine ⟨_, hb, ?_, ?_, ?_, ?_, ?_, ?_⟩
  · intro hne
    rw [loop_succ, if_neg hne, hb]
  · unfold finish_call
    split <;> simp [h3]
  · unfold finish_call
    split <;> rfl
  · intro j hj
    unfold finish_call
    split
    · exact rd_wr_ne _ _ _ _ (by simp only; omega)
    · rfl
  · intro hv
    simp [finish_call, hv]
  · intro hv
    have hroom := hroom hv
    simp only [finish_call, hv, if_true, true_and]
    exact rd_wr_same _ _ _ (by omega) (by omega)

/-- Witness of C5: the call of `first_param_method` from `two_arg_frame`, which returns
the value 10, and the call of `void_method` from a caller whose stack has no slot. -/
theorem invokestatic_caller_state_witness :
    (∃ g : frame,
      body two_arg_class (execute two_arg_class 5) two_arg_caller two_arg_frame
        = some (g, false) ∧
      g.pc = 7 ∧ g.locals = [] ∧ g.s_i = 1 ∧ rd g.stack 0 = 10) ∧
    (∃ g : frame,
      body void_class (execute void_class 5) void_caller (init_frame void_caller [] [] [])
        = some (g, false) ∧
      g.pc = 3 ∧ g.s_i = 0 ∧ g.stack = []) := by
  constructor
  · obtain ⟨g, h1, _, h3, h4, _, _, h7⟩ :=
      invokestatic_caller_state two_arg_class 5 two_arg_caller two_arg_frame first_param_final
        first_param_method 2 2 (by decide) (by rfl) (by rfl) (by rfl) (by decide) (by decide)
        (by decide) (by decide) (fun _ => by decide)
    exact ⟨g, h1, h3, h4, by simpa using (h7 rfl).1, by simpa using (h7 rfl).2⟩
  · obtain ⟨g, h1, _, h3, _, _, h6, _⟩ :=
      invokestatic_caller_state void_class 5 void_caller (init_frame void_caller [] [] [])
        (init_frame void_method [] [] []) void_method 0 0 (by decide) (by rfl) (by rfl)
        (by rfl) (by decide) (by decide) (by decide) (by decide)
        (fun hv => absurd hv (by decide))
    exact ⟨g, h1, h3, by simpa using (h6 rfl).1, (h6 rfl).2⟩

/-- Claim C6: with `a = stack[h - 2]` pushed first and `b = stack[h - 1]` pushed second,
`iadd`, `isub` and `imul` leave height `h - 1` with slot `h - 2` holding `a + b`, `a - b`
and `a * b` reduced modulo `2 ^ 32` into the signed 32-bit range, and `ineg` leaves height
`h` with slot `h - 1` holding `0 - b` reduced the same way; lower slots are unchanged. -/
theorem arithmetic_two_complement (cls : class_file_t)
    (exec : method_t → List Int → heap_t → List Int → Option frame)
    (method : method_t) (f : frame) (h a b : Int)
    (hh : f.s_i = h) (h1 : 1 ≤ h) (hcap : h ≤ f.stack.length)
    (ha : a = rd f.stack (h - 2)) (hb : b = rd f.stack (h - 1)) :
    (byteAt method.code f.pc = i_iadd → 2 ≤ h →
      ∃ g, body cls exec method f = some (g, false) ∧ g.s_i = h - 1 ∧
        rd g.stack (h - 2) = toS32 (a + b) ∧ reduces32 (a + b) (toS32 (a + b)) ∧
        ∀ j : Int, j < h - 2 → rd g.stack j = rd f.stack j) ∧
    (byteAt method.code f.pc = i_isub → 2 ≤ h →
      ∃ g, body cls exec method f = some (g, false) ∧ g.s_i = h - 1 ∧
        rd g.stack (h - 2) = toS32 (a - b) ∧ reduces32 (a - b) (toS32 (a - b)) ∧
        ∀ j : Int, j < h - 2 → rd g.stack j = rd f.stack j) ∧
    (byteAt method.code f.pc = i_imul → 2 ≤ h →
      ∃ g, body cls exec method f = some (g, false) ∧ g.s_i = h - 1 ∧
        rd g.stack (h - 2) = toS32 (a * b) ∧ reduces32 (a * b) (toS32 (a * b)) ∧
        ∀ j : Int, j < h - 2 → rd g.stack j = rd f.stack j) ∧
    (byteAt method.code f.pc = i_ineg →
      ∃ g, body cls exec method f = some (g, false) ∧ g.s_i = h ∧
        rd g.stack (h - 1) = toS32 (0 - b) ∧ reduces32 (0 - b) (toS32 (0 - b)) ∧
        ∀ j : Int, j < h - 1 → rd g.stack j = rd f.stack j) := by
  subst hh ha hb
  refine ⟨?_, ?_, ?_, ?_⟩
  · intro hcur h2
    refine ⟨_, body_iadd cls exec method f hcur, rfl, ?_, toS32_reduces32 _, ?_⟩
    · exact rd_wr_same _ _ _ (by omega) (by omega)
    · intro j hj
      exact rd_wr_ne _ _ _ _ (by omega)
  · intro hcur h2
    refine ⟨_, body_isub cls exec method f hcur, rfl, ?_, toS32_reduces32 _, ?_⟩
    · exact rd_wr_same _ _ _ (by omega) (by omega)
    · intro j hj
      exact rd_wr_ne _ _ _ _ (by omega)
  · intro hcur h2
    refine ⟨_, body_imul cls exec method f hcur, rfl, ?_, toS32_reduces32 _, ?_⟩
    · exact rd_wr_same _ _ _ (by omega) (by omega)
    · intro j hj
      exact rd_wr_ne _ _ _ _ (by omega)
  · intro hcur
    refine ⟨_, body_ineg cls exec method f hcur, rfl, ?_, toS32_reduces32 _, ?_⟩
    · have h := rd_wr_same f.stack (f.s_i - 1) (toS32 (-1 * rd f.stack (f.s_i - 1)))
        (by omega) (by omega)
      simp only [h]
      congr 1
      ring
    · intro j hj
      exact rd_wr_ne _ _ _ _ (by omega)

/-- Witness of C6: `INT32_MAX + 1` gives `INT32_MIN`, the operands 5 and 3 under `isub`
leave 2, `ineg` of `INT32_MIN` is `INT32_MIN`, and the program
`bipush 5; bipush 3; isub; ireturn` returns 2. -/
theorem arithmetic_two_complement_witness :
    (∃ g, body empty_class (execute empty_class 0) (code_method [0x60])
        (operand_frame 2147483647 1) = some (g, false) ∧ rd g.stack 0 = -2147483648) ∧
    (∃ g, body empty_class (execute empty_class 0) (code_method [0x64])
        (operand_frame 5 3) = some (g, false) ∧ g.s_i = 1 ∧ rd g.stack 0 = 2) ∧
    (∃ g, body empty_class (execute empty_class 0) (code_method [0x74])
        (operand_frame 0 (-2147483648)) = some (g, false) ∧ rd g.stack 1 = -2147483648) ∧
    (execute empty_class 9 (code_method [0x10, 0x05, 0x10, 0x03, 0x64, 0xac]) [] [] []).map
      frame.result = some { has_value := true, value := 2 } := by
  refine ⟨?_, ?_, ?_, by decide⟩
  · obtain ⟨g, hg, _, h3, _⟩ := (arithmetic_two_complement empty_class (execute empty_class 0)
      (code_method [0x60]) (operand_frame 2147483647 1) 2 2147483647 1
      (by rfl) (by decide) (by decide) (by decide) (by decide)).1 (by decide) (by decide)
    exact ⟨g, hg, by rw [show (0 : Int) = 2 - 2 by rfl, h3]; decide⟩
  · obtain ⟨g, hg, h2, h3, _⟩ := (arithmetic_two_complement empty_class (execute empty_class 0)
      (code_method [0x64]) (operand_frame 5 3) 2 5 3
      (by rfl) (by decide) (by decide) (by decide) (by decide)).2.1 (by decide) (by decide)
    exact ⟨g, hg, by rw [h2]; decide, by rw [show (0 : Int) = 2 - 2 by rfl, h3]; decide⟩
  · obtain ⟨g, hg, _, h3, _⟩ := (arithmetic_two_complement empty_class (execute empty_class 0)
      (code_method [0x74]) (operand_frame 0 (-2147483648)) 2 0 (-2147483648)
      (by rfl) (by decide) (by decide) (by decide) (by decide)).2.2.2 (by decide)
    exact ⟨g, hg, by rw [show (1 : Int) = 2 - 1 by rfl, h3]; decide⟩

/-- Claim C8: when no instruction case matches (the opcode at `pc` is `idiv` or `irem` and
the top of stack is 0, or the opcode is a byte the dispatch loop does not recognise), one
pass through the loop body leaves `pc`, the height, the stack, the locals, the heap, the
output and the result unchanged, and the loop entered in that state never returns,
whatever the fuel: no result, and no error, is produced. -/
theorem no_case_stalls (cls : class_file_t)
    (exec : method_t → List Int → heap_t → List Int → Option frame)
    (method : method_t) (f : frame) (hst : no_case_matches method f) :
    (∃ g, body cls exec method f = some (g, false) ∧ g.pc = f.pc ∧ g.s_i = f.s_i ∧
      g.stack = f.stack ∧ g.locals = f.locals ∧ g.heap = f.heap ∧ g.out = f.out ∧
      g.result = f.result ∧ g.curr = byteAt method.code f.pc ∧
      ∀ fuel, loop cls fuel method g = none) ∧
    (f.curr ≠ i_return → ∀ fuel, loop cls fuel method f = none) := by
  refine ⟨⟨_, body_no_case cls exec method f hst, rfl, rfl, rfl, rfl, rfl, rfl, rfl, rfl, ?_⟩,
    fun hne fuel => loop_no_case cls method fuel f hst hne⟩
  intro fuel
  apply loop_no_case cls method fuel
  · exact hst
  · simp only
    rcases hst with ⟨hop | hop, _⟩ | hun
    · rw [hop]; decide
    · rw [hop]; decide
    · intro h
      exact hun (Or.inl h)

/-- Witness of C8: `idiv` with the operands 1 and 0 never returns, and neither does a
method that starts with the unassigned byte `0x01`. -/
theorem no_case_stalls_witness :
    loop empty_class 1000 (code_method [0x6c, 0xb1]) (operand_frame 1 0) = none ∧
    execute empty_class 1000 (code_method [0x01, 0xb1]) [] [] [] = none := by
  constructor
  · exact (no_case_stalls empty_class (execute empty_class 0) (code_method [0x6c, 0xb1])
      (operand_frame 1 0) (Or.inl ⟨Or.inl rfl, rfl⟩)).2 (by decide) 1000
  · exact (no_case_stalls empty_class (execute empty_class 0) (code_method [0x01, 0xb1])
      (init_frame (code_method [0x01, 0xb1]) [] [] []) (Or.inr (by decide))).2 (by decide) 1000

/-- Claim C9: for a 32-bit `a = stack[h - 2]` and a shift amount `s = stack[h - 1]` with
`0 ≤ s ≤ 31`, each shift leaves height `h - 1`; `ishl` leaves in slot `h - 2` the value
`a * 2 ^ s` reduced modulo `2 ^ 32` into the signed range, `ishr` leaves the floor of
`a / 2 ^ s`, negative when `a` is, and `iushr` leaves the floor of
`(a mod 2 ^ 32) / 2 ^ s` reduced into the signed range, non-negative when `s ≥ 1`. -/
theorem shifts_in_range (cls : class_file_t)
    (exec : method_t → List Int → heap_t → List Int → Option frame)
    (method : method_t) (f : frame) (h a s : Int)
    (hh : f.s_i = h) (h2 : 2 ≤ h) (hcap : h ≤ f.stack.length)
    (ha : a = rd f.stack (h - 2)) (hs : s = rd f.stack (h - 1))
    (ha0 : -2147483648 ≤ a) (ha1 : a ≤ 2147483647) (hs0 : 0 ≤ s) (hs1 : s ≤ 31) :
    (byteAt method.code f.pc = i_ishl →
      ∃ g, body cls exec method f = some (g, false) ∧ g.s_i = h - 1 ∧
        reduces32 (a * 2 ^ s.toNat) (rd g.stack (h - 2))) ∧
    (byteAt method.code f.pc = i_ishr →
      ∃ g, body cls exec method f = some (g, false) ∧ g.s_i = h - 1 ∧
        rd g.stack (h - 2) = Int.fdiv a (2 ^ s.toNat) ∧ (a < 0 → rd g.stack (h - 2) < 0)) ∧
    (byteAt method.code f.pc = i_iushr →
      ∃ g, body cls exec method f = some (g, false) ∧ g.s_i = h - 1 ∧
        reduces32 ((a % 4294967296) / 2 ^ s.toNat) (rd g.stack (h - 2)) ∧
        (1 ≤ s → 0 ≤ rd g.stack (h - 2))) := by
  subst hh ha hs
  have hk := shamt_of_range _ hs0 hs1
  refine ⟨?_, ?_, ?_⟩
  · intro hcur
    refine ⟨_, body_ishl cls exec method f hcur, rfl, ?_⟩
    simp only [rd_wr_same f.stack (f.s_i - 2) _ (by omega) (by omega), hk]
    exact shl_reduces32 _ _
  · intro hcur
    refine ⟨_, body_ishr cls exec method f hcur, rfl, ?_⟩
    simp only [rd_wr_same f.stack (f.s_i - 2) _ (by omega) (by omega), hk]
    exact shr_floor _ _ ha0 ha1
  · intro hcur
    refine ⟨_, body_iushr cls exec method f hcur, rfl, ?_⟩
    simp only [rd_wr_same f.stack (f.s_i - 2) _ (by omega) (by omega), hk]
    refine ⟨(ushr_reduces32 _ _).1, fun h1 => ((ushr_reduces32 _ _).2 (by omega)).1⟩

/-- Witness of C9: `-8 >> 1` is `-4`, and `-8 >>> 1` is not negative. -/
theorem shifts_in_range_witness :
    (∃ g, body empty_class (execute empty_class 0) (code_method [0x7a])
        (operand_frame (-8) 1) = some (g, false) ∧ g.s_i = 1 ∧ rd g.stack 0 = -4) ∧
    (∃ g, body empty_class (execute empty_class 0) (code_method [0x7c])
        (operand_frame (-8) 1) = some (g, false) ∧ 0 ≤ rd g.stack 0) := by
  refine ⟨?_, ?_⟩
  · obtain ⟨g, hg, h2, h3, _⟩ := (shifts_in_range empty_class (execute empty_class 0)
      (code_method [0x7a]) (operand_frame (-8) 1) 2 (-8) 1 (by rfl) (by decide) (by decide)
      (by decide) (by decide) (by decide) (by decide) (by decide) (by decide)).2.1 (by decide)
    exact ⟨g, hg, by rw [h2]; decide, by rw [show (0 : Int) = 2 - 2 by rfl, h3]; decide⟩
  · obtain ⟨g, hg, _, _, h4⟩ := (shifts_in_range empty_class (execute empty_class 0)
      (code_method [0x7c]) (operand_frame (-8) 1) 2 (-8) 1 (by rfl) (by decide) (by decide)
      (by decide) (by decide) (by decide) (by decide) (by decide) (by decide)).2.2 (by decide)
    exact ⟨g, hg, h4 (by decide)⟩

/-- Claim C10: for a slot `k` below `max_locals` and a value `v` on top of a stack of
height `h ≥ 1`, a store to slot `k` (`istore k` or `astore k`, or for `k ≤ 3` the
shorthand `istore_k` or `astore_k`) immediately followed by a load of slot `k` (`iload k`
or `aload k`, or the shorthand `iload_k` or `aload_k`) leaves height `h` with `v` on top,
`locals[k] = v`, every other local and every lower stack slot unchanged, and `pc` advanced
by 4 for the generic forms and by 2 for the shorthands; integer and reference forms
address the same slot. -/
theorem local_round_trip (cls : class_file_t)
    (exec : method_t → List Int → heap_t → List Int → Option frame)
    (method : method_t) (f : frame) (h v : Int) (k : Nat)
    (hh : f.s_i = h) (h1 : 1 ≤ h) (hcap : h ≤ f.stack.length) (hv : v = rd f.stack (h - 1))
    (hml : f.locals.length = method.max_locals) (hk : k < method.max_locals)
    (hlen : method.code.length < 4294967296) :
    (f.pc + 3 < method.code.length →
      byteAt method.code f.pc = i_istore ∨ byteAt method.code f.pc = i_astore →
      byteAt method.code (f.pc + 1) = k →
      byteAt method.code (f.pc + 2) = i_iload ∨ byteAt method.code (f.pc + 2) = i_aload →
      byteAt method.code (f.pc + 3) = k →
      ∃ g1 g2, body cls exec method f = some (g1, false) ∧
        body cls exec method g1 = some (g2, false) ∧
        g2.s_i = h ∧ rd g2.stack (h - 1) = v ∧ rd g2.locals k = v ∧
        (∀ j : Int, j ≠ k → rd g2.locals j = rd f.locals j) ∧
        (∀ j : Int, j < h - 1 → rd g2.stack j = rd f.stack j) ∧
        g2.pc = f.pc + 4) ∧
    (k ≤ 3 → f.pc + 1 < method.code.length →
      byteAt method.code f.pc = i_istore_0 + k ∨ byteAt method.code f.pc = i_astore_0 + k →
      byteAt method.code (f.pc + 1) = i_iload_0 + k ∨
        byteAt method.code (f.pc + 1) = i_aload_0 + k →
      ∃ g1 g2, body cls exec method f = some (g1, false) ∧
        body cls exec method g1 = some (g2, false) ∧
        g2.s_i = h ∧ rd g2.stack (h - 1) = v ∧ rd g2.locals k = v ∧
        (∀ j : Int, j ≠ k → rd g2.locals j = rd f.locals j) ∧
        (∀ j : Int, j < h - 1 → rd g2.stack j = rd f.stack j) ∧
        g2.pc = f.pc + 2) := by
  subst hh hv
  have hkl : (k : Int) < f.locals.length := by rw [hml]; exact_mod_cast hk
  constructor
  · intro hpc hst hk1 hld hk2
    have e1 : szadd f.pc 1 = f.pc + 1 := szadd_nat f.pc 1 (by omega)
    have e2 : szadd f.pc 2 = f.pc + 2 := szadd_nat f.pc 2 (by omega)
    have e3 : szadd (f.pc + 2) 1 = f.pc + 3 := szadd_nat (f.pc + 2) 1 (by omega)
    have e4 : szadd (f.pc + 2) 2 = f.pc + 4 := szadd_nat (f.pc + 2) 2 (by omega)
    have hb1 := body_store cls exec method f hst
    rw [e1, e2, hk1] at hb1
    have hb2 := body_load cls exec method _ (show
      byteAt method.code ({ f with
        curr := byteAt method.code f.pc
        locals := wr f.locals (k : Int) (rd f.stack (f.s_i - 1))
        s_i := f.s_i - 1
        pc := f.pc + 2 } : frame).pc = i_iload ∨ _ from hld)
    simp only [e3, e4, hk2] at hb2
    refine ⟨_, _, hb1, hb2, by simp, ?_, ?_, ?_, ?_, rfl⟩
    · simp only [sub_add_cancel]
      rw [rd_wr_same f.locals k _ (by omega) hkl]
      exact rd_wr_same _ _ _ (by omega) (by omega)
    · exact rd_wr_same f.locals k _ (by omega) hkl
    · intro j hj
      exact rd_wr_ne _ _ _ _ (Ne.symm hj)
    · intro j hj
      simp only [sub_add_cancel]
      exact rd_wr_ne _ _ _ _ (by omega)
  · intro hk3 hpc hst hld
    have e1 : szadd f.pc 1 = f.pc + 1 := szadd_nat f.pc 1 (by omega)
    have e2 : szadd (f.pc + 1) 1 = f.pc + 2 := szadd_nat (f.pc + 1) 1 (by omega)
    have hb1 := body_store_n cls exec method f k hk3 hst
    rw [e1] at hb1
    have hb2 := body_load_n cls exec method _ k hk3 (show
      byteAt method.code ({ f with
        curr := byteAt method.code f.pc
        locals := wr f.locals (k : Int) (rd f.stack (f.s_i - 1))
        s_i := f.s_i - 1
        pc := f.pc + 1 } : frame).pc = i_iload_0 + k ∨ _ from hld)
    simp only [e2] at hb2
    refine ⟨_, _, hb1, hb2, by simp, ?_, ?_, ?_, ?_, rfl⟩
    · simp only [sub_add_cancel]
      rw [rd_wr_same f.locals k _ (by omega) hkl]
      exact rd_wr_same _ _ _ (by omega) (by omega)
    · exact rd_wr_same f.locals k _ (by omega) hkl
    · intro j hj
      exact rd_wr_ne _ _ _ _ (Ne.symm hj)
    · intro j hj
      simp only [sub_add_cancel]
      exact rd_wr_ne _ _ _ _ (by omega)

/-- Witness of C10: `istore 2; aload 2` and `astore_1; iload_1` on the stack `[7, 9]`. -/
theorem local_round_trip_witness :
    (∃ g1 g2, body empty_class (execute empty_class 0) (locals_method [0x36, 2, 0x19, 2])
        (store_frame 9) = some (g1, false) ∧
      body empty_class (execute empty_class 0) (locals_method [0x36, 2, 0x19, 2]) g1
        = some (g2, false) ∧
      g2.s_i = 2 ∧ rd g2.stack 1 = 9 ∧ rd g2.locals 2 = 9 ∧ g2.pc = 4) ∧
    (∃ g1 g2, body empty_class (execute empty_class 0) (locals_method [0x4c, 0x1b])
        (store_frame 9) = some (g1, false) ∧
      body empty_class (execute empty_class 0) (locals_method [0x4c, 0x1b]) g1
        = some (g2, false) ∧
      g2.s_i = 2 ∧ rd g2.stack 1 = 9 ∧ rd g2.locals 1 = 9 ∧ g2.pc = 2) := by
  constructor
  · obtain ⟨g1, g2, a1, a2, a3, a4, a5, _, _, a8⟩ :=
      (local_round_trip empty_class (execute empty_class 0) (locals_method [0x36, 2, 0x19, 2])
        (store_frame 9) 2 9 2 (by rfl) (by decide) (by decide) (by decide) (by decide)
        (by decide) (by decide)).1 (by decide) (by decide) (by decide) (by decide) (by decide)
    exact ⟨g1, g2, a1, a2, a3, a4, a5, a8⟩
  · obtain ⟨g1, g2, a1, a2, a3, a4, a5, _, _, a8⟩ :=
      (local_round_trip empty_class (execute empty_class 0) (locals_method [0x4c, 0x1b])
        (store_frame 9) 2 9 1 (by rfl) (by decide) (by decide) (by decide) (by decide)
        (by decide) (by decide)).2 (by decide) (by decide) (by decide) (by decide)
    exact ⟨g1, g2, a1, a2, a3, a4, a5, a8⟩

/-- Claim C11: for a heap array of `L` elements referenced by `r` and an index
`0 ≤ i < L`, `iastore` on the operands `(r, i, v)` lowers the height by 3 and advances `pc`
by 1; afterwards `iaload` on `(r, i)` lowers the height by 1, advances `pc` by 1 and pushes
exactly `v`, and `iaload` on `(r, j)` for another index `j` of `[0, L)` pushes what it
pushed on the heap before the store.  An array freshly allocated by `newarray` reads 0 at
every index. -/
theorem array_round_trip (cls : class_file_t)
    (exec : method_t → List Int → heap_t → List Int → Option frame)
    (method : method_t) (f : frame) (r i v L h : Int)
    (halloc : allocated f.heap r L) (hL : L ≤ 2147483647) (hi0 : 0 ≤ i) (hi1 : i < L)
    (hcur : byteAt method.code f.pc = i_iastore) (hh : f.s_i = h) (_h3 : 3 ≤ h)
    (hr : rd f.stack (h - 3) = r) (hi : rd f.stack (h - 2) = i) (hv : rd f.stack (h - 1) = v)
    (hpc : f.pc < method.code.length) (hlen : method.code.length < 4294967296) :
    (∃ g, body cls exec method f = some (g, false) ∧ g.s_i = h - 3 ∧ g.pc = f.pc + 1 ∧
      (∀ (m2 : method_t) (f2 : frame), f2.heap = g.heap → iaload_ready m2 f2 r i →
        ∃ g2, body cls exec m2 f2 = some (g2, false) ∧ g2.s_i = f2.s_i - 1 ∧
          g2.pc = f2.pc + 1 ∧ rd g2.stack (f2.s_i - 2) = v) ∧
      (∀ (m2 : method_t) (f2 : frame) (j : Int), f2.heap = g.heap →
        iaload_ready m2 f2 r j → 0 ≤ j → j < L → j ≠ i →
        ∃ g2 g0, body cls exec m2 f2 = some (g2, false) ∧
          body cls exec m2 { f2 with heap := f.heap } = some (g0, false) ∧
          g2.s_i = f2.s_i - 1 ∧ g2.pc = f2.pc + 1 ∧
          rd g2.stack (f2.s_i - 2) = rd g0.stack (f2.s_i - 2))) ∧
    (∀ (m0 : method_t) (f0 : frame) (count : Int),
      byteAt m0.code f0.pc = i_newarray → 1 ≤ f0.s_i → f0.s_i ≤ f0.stack.length →
      rd f0.stack (f0.s_i - 1) = count → 0 ≤ count → count < 2147483647 →
      ∃ g0, body cls exec m0 f0 = some (g0, false) ∧
        ∀ (m2 : method_t) (f2 : frame) (j : Int), f2.heap = g0.heap →
          iaload_ready m2 f2 (rd g0.stack (f0.s_i - 1)) j → 0 ≤ j → j < count →
          ∃ g2, body cls exec m2 f2 = some (g2, false) ∧ g2.s_i = f2.s_i - 1 ∧
            g2.pc = f2.pc + 1 ∧ rd g2.stack (f2.s_i - 2) = 0) := by
  obtain ⟨hr0, hr1, hlenarr⟩ := halloc
  subst hh
  constructor
  · refine ⟨_, body_iastore cls exec method f hcur, rfl, szadd_one _ _ hpc hlen, ?_, ?_⟩
    · intro m2 f2 hheap hready
      obtain ⟨g2, e1, e2, e3, e4⟩ := iaload_value cls exec m2 f2 r i hready (by omega) (by omega)
      refine ⟨g2, e1, e2, e3, ?_⟩
      rw [e4, hheap]
      simp only [hr, hi, hv]
      rw [heap_get_put_same _ _ _ hr0 hr1, toS32_of_range _ (by omega) (by omega)]
      exact rd_wr_same _ _ _ (by omega) (by omega)
    · intro m2 f2 j hheap hready hj0 hj1 hji
      obtain ⟨g2, e1, e2, e3, e4⟩ := iaload_value cls exec m2 f2 r j hready (by omega) (by omega)
      have hready0 : iaload_ready m2 { f2 with heap := f.heap } r j := hready
      obtain ⟨g0, d1, _, _, d4⟩ := iaload_value cls exec m2 _ r j hready0 (by omega) (by omega)
      refine ⟨g2, g0, e1, d1, e2, e3, ?_⟩
      rw [e4, hheap]
      simp only [hr, hi, hv]
      rw [heap_get_put_same _ _ _ hr0 hr1, toS32_of_range _ (by omega) (by omega)]
      rw [rd_wr_ne _ _ _ _ (by omega)]
      exact d4.symm
  · intro m0 f0 count hcur0 h1 hcap0 htop hc0 hc1
    refine ⟨_, body_newarray cls exec m0 f0 hcur0, ?_⟩
    intro m2 f2 j hheap hready hj0 hj1
    simp only [rd_wr_same f0.stack (f0.s_i - 1) _ (by omega) (by omega)] at hready
    obtain ⟨g2, e1, e2, e3, e4⟩ := iaload_value cls exec m2 f2 _ j hready (by omega) (by omega)
    refine ⟨g2, e1, e2, e3, ?_⟩
    rw [e4, hheap]
    simp only [heap_get_append_new]
    rw [rd_wr_ne _ _ _ _ (by omega)]
    exact rd_replicate_zero _ _

/-- Witness of C11: on the heap `[[3, 0, 0, 0]]`, storing 42 at index 1 of the array 0 and
loading index 1 gives 42. -/
theorem array_round_trip_witness :
    ∃ g g2, body empty_class (execute empty_class 0) (code_method [0x4f])
        (heap_frame [0, 1, 42] [[3, 0, 0, 0]]) = some (g, false) ∧
      g.s_i = 0 ∧ g.pc = 1 ∧
      body empty_class (execute empty_class 0) (code_method [0x2e])
        (heap_frame [0, 1] g.heap) = some (g2, false) ∧
      g2.s_i = 1 ∧ rd g2.stack 0 = 42 := by
  obtain ⟨g, h1, h2, h3, h4, _⟩ := (array_round_trip empty_class (execute empty_class 0)
    (code_method [0x4f]) (heap_frame [0, 1, 42] [[3, 0, 0, 0]]) 0 1 42 3 3
    (by decide) (by decide) (by decide) (by decide) (by decide) (by rfl) (by decide)
    (by decide) (by decide) (by decide) (by decide) (by decide)).1
  obtain ⟨g2, k1, k2, _, k4⟩ := h4 (code_method [0x2e]) (heap_frame [0, 1] g.heap) rfl
    ⟨rfl, by simp [heap_frame], by simp [heap_frame], rfl, rfl, by simp [heap_frame, code_method],
      by simp [code_method]⟩
  exact ⟨g, g2, h1, h2, h3, k1, k2, k4⟩

/-- Claim C13: for every method, if the loop of `execute` reaches a frame `f` whose opcode
is `return` (the first instruction included), then with enough fuel `execute` returns,
with `has_value = false`; if it reaches `ireturn` or `areturn` at height `h ≥ 1`, it
returns with `has_value = true` and the value `stack[h - 1]`.  In both cases the final
frame has the stack, locals, heap and output of `f`: nothing more is executed, printed or
written. -/
theorem return_family (cls : class_file_t) (method : method_t) (locals : List Int)
    (heap : heap_t) (out : List Int) (f : frame)
    (hreach : reaches cls method (init_frame method locals heap out) f) :
    (byteAt method.code f.pc = i_return →
      ∃ N g, (∀ fuel, N ≤ fuel → execute cls fuel method locals heap out = some g) ∧
        g.result.has_value = false ∧ g.pc = f.pc ∧ g.s_i = f.s_i ∧ g.stack = f.stack ∧
        g.locals = f.locals ∧ g.heap = f.heap ∧ g.out = f.out) ∧
    (byteAt method.code f.pc = i_ireturn ∨ byteAt method.code f.pc = i_areturn →
      1 ≤ f.s_i →
      ∃ N g, (∀ fuel, N ≤ fuel → execute cls fuel method locals heap out = some g) ∧
        g.result = { has_value := true, value := rd f.stack (f.s_i - 1) } ∧
        g.stack = f.stack ∧ g.locals = f.locals ∧ g.heap = f.heap ∧ g.out = f.out) := by
  obtain ⟨hres, hcurr⟩ := reaches_invariant cls method locals heap out f hreach
  constructor
  · intro hret
    have hloop : ∃ N, ∀ n, N ≤ n → loop cls n method f = some { f with curr := i_return } := by
      refine ⟨2, fun n hn => ?_⟩
      obtain ⟨n, rfl⟩ : ∃ n1, n = n1 + 2 := ⟨n - 2, by omega⟩
      rw [loop_succ]
      by_cases hc : f.curr = i_return
      · rw [if_pos hc, ← hc]
      · rw [if_neg hc, body_return cls _ method f hret]
        simp only
        rw [loop_succ, if_pos rfl]
    obtain ⟨N, hN⟩ := reaches_loop cls method _ f _ hreach hloop
    exact ⟨N, _, hN, by simp only [hres], rfl, rfl, rfl, rfl, rfl, rfl⟩
  · intro hret _
    have hc : f.curr ≠ i_return := by
      intro h
      have h1 := hcurr h
      rcases hret with h2 | h2 <;> rw [h1] at h2 <;> exact absurd h2 (by decide)
    have hloop : ∃ N, ∀ n, N ≤ n → loop cls n method f = some { f with
        curr := byteAt method.code f.pc
        result := { has_value := true, value := rd f.stack (f.s_i - 1) }
        s_i := f.s_i - 1
        pc := szadd f.pc 1 } := by
      refine ⟨1, fun n hn => ?_⟩
      obtain ⟨n, rfl⟩ : ∃ n1, n = n1 + 1 := ⟨n - 1, by omega⟩
      rw [loop_succ, if_neg hc, body_ireturn cls _ method f hret]
    obtain ⟨N, hN⟩ := reaches_loop cls method _ f _ hreach hloop
    exact ⟨N, _, hN, rfl, rfl, rfl, rfl, rfl⟩

/-- Witness of C13: the method `bipush 7; ireturn; return` reaches its `ireturn` after one
pass and returns 7. -/
theorem return_family_witness :
    ∃ N g, (∀ fuel, N ≤ fuel →
        execute empty_class fuel (code_method [0x10, 0x07, 0xac, 0xb1]) [] [] [] = some g) ∧
      g.result = { has_value := true, value := 7 } ∧ g.out = [] := by
  obtain ⟨N, g, h1, h2, _, _, _, h6⟩ := (return_family empty_class
    (code_method [0x10, 0x07, 0xac, 0xb1]) [] [] []
    { init_frame (code_method [0x10, 0x07, 0xac, 0xb1]) [] [] [] with
      pc := 2, s_i := 1, stack := [7, 0] }
    (reaches.pass 0 (init_frame (code_method [0x10, 0x07, 0xac, 0xb1]) [] [] []) _
      reaches.start (by decide) (by decide))).2 (Or.inl (by decide)) (by decide)
  exact ⟨N, g, h1, h2, h6⟩

/-- Claim C14: at height `h` below the stack's capacity, `bipush` pushes the operand byte
read as a signed 8-bit value (in `-128..127`) and advances `pc` by 2; `sipush` pushes the
signed 16-bit value of the big-endian byte pair (in `-32768..32767`) and advances `pc` by
3; the opcode `iconst_0 + k` with `-1 ≤ k ≤ 5` pushes `k` and advances `pc` by 1; `ldc`
with the index byte `x ≥ 1` pushes the integer of constant-pool entry `x - 1` and advances
`pc` by 2.  Each raises the height by 1 and leaves the lower stack slots and the locals
unchanged. -/
theorem push_constants (cls : class_file_t)
    (exec : method_t → List Int → heap_t → List Int → Option frame)
    (method : method_t) (f : frame) (h : Int)
    (hh : f.s_i = h) (h0 : 0 ≤ h) (hroom : h < f.stack.length)
    (hlen : method.code.length < 4294967296) :
    (byteAt method.code f.pc = i_bipush → f.pc + 1 < method.code.length →
      ∃ g, body cls exec method f = some (g, false) ∧ g.s_i = h + 1 ∧ g.pc = f.pc + 2 ∧
        rd g.stack h = s8 (byteAt method.code (f.pc + 1)) ∧
        -128 ≤ rd g.stack h ∧ rd g.stack h ≤ 127 ∧
        (∀ j : Int, j < h → rd g.stack j = rd f.stack j) ∧ g.locals = f.locals) ∧
    (byteAt method.code f.pc = i_sipush → f.pc + 2 < method.code.length →
      ∃ g, body cls exec method f = some (g, false) ∧ g.s_i = h + 1 ∧ g.pc = f.pc + 3 ∧
        rd g.stack h = s16be (byteAt method.code (f.pc + 1)) (byteAt method.code (f.pc + 2)) ∧
        -32768 ≤ rd g.stack h ∧ rd g.stack h ≤ 32767 ∧
        (∀ j : Int, j < h → rd g.stack j = rd f.stack j) ∧ g.locals = f.locals) ∧
    (∀ k : Int, -1 ≤ k → k ≤ 5 → (byteAt method.code f.pc : Int) = (i_iconst_0 : Int) + k →
      f.pc < method.code.length →
      ∃ g, body cls exec method f = some (g, false) ∧ g.s_i = h + 1 ∧ g.pc = f.pc + 1 ∧
        rd g.stack h = k ∧
        (∀ j : Int, j < h → rd g.stack j = rd f.stack j) ∧ g.locals = f.locals) ∧
    (∀ x : Nat, byteAt method.code f.pc = i_ldc → byteAt method.code (f.pc + 1) = x → 1 ≤ x →
      f.pc + 1 < method.code.length →
      ∃ g, body cls exec method f = some (g, false) ∧ g.s_i = h + 1 ∧ g.pc = f.pc + 2 ∧
        rd g.stack h = rd cls.constant_pool ((x : Int) - 1) ∧
        (∀ j : Int, j < h → rd g.stack j = rd f.stack j) ∧ g.locals = f.locals) := by
  subst hh
  refine ⟨?_, ?_, ?_, ?_⟩
  · intro hcur hpc
    have e1 : szadd f.pc 1 = f.pc + 1 := szadd_nat f.pc 1 (by omega)
    have e2 : szadd f.pc 2 = f.pc + 2 := szadd_nat f.pc 2 (by omega)
    have hv : rd (wr f.stack f.s_i (toInt8 (byteAt method.code (szadd f.pc 1)))) f.s_i
        = s8 (byteAt method.code (f.pc + 1)) := by
      rw [rd_wr_same _ _ _ h0 hroom, e1, toInt8_eq_s8 _ (byteAt_lt _ _)]
    have hb := byteAt_lt method.code (f.pc + 1)
    refine ⟨_, body_bipush cls exec method f hcur, rfl, e2, hv, ?_, ?_,
      fun j hj => rd_wr_ne _ _ _ _ (by omega), rfl⟩
    · simp only [hv]
      unfold s8
      split <;> omega
    · simp only [hv]
      unfold s8
      split <;> omega
  · intro hcur hpc
    have e3 : szadd f.pc 3 = f.pc + 3 := szadd_nat f.pc 3 (by omega)
    have hv : rd (wr f.stack f.s_i (toShort (operand16 method.code f.pc))) f.s_i
        = s16be (byteAt method.code (f.pc + 1)) (byteAt method.code (f.pc + 2)) := by
      rw [rd_wr_same _ _ _ h0 hroom, toShort_operand16 _ _ (by omega)]
    have hb := s16be_bounds _ _ (byteAt_lt method.code (f.pc + 1))
      (byteAt_lt method.code (f.pc + 2))
    refine ⟨_, body_sipush cls exec method f hcur, rfl, e3, hv, ?_, ?_,
      fun j hj => rd_wr_ne _ _ _ _ (by omega), rfl⟩
    · simp only [hv]
      exact hb.1
    · simp only [hv]
      exact hb.2
  · intro k hk0 hk1 hcur hpc
    exact ⟨_, body_iconst cls exec method f k hk0 hk1 hcur, rfl, szadd_nat f.pc 1 (by omega),
      rd_wr_same _ _ _ h0 hroom, fun j hj => rd_wr_ne _ _ _ _ (by omega), rfl⟩
  · intro x hcur hx _ hpc
    have e1 : szadd f.pc 1 = f.pc + 1 := szadd_nat f.pc 1 (by omega)
    have e2 : szadd f.pc 2 = f.pc + 2 := szadd_nat f.pc 2 (by omega)
    refine ⟨_, body_ldc cls exec method f hcur, rfl, e2, ?_,
      fun j hj => rd_wr_ne _ _ _ _ (by omega), rfl⟩
    simp only
    rw [rd_wr_same _ _ _ h0 hroom, e1, hx]

/-- Witness of C14: `bipush 0xfb` pushes -5, `sipush 0xff 0xfe` pushes -2, `iconst_m1`
pushes -1 and `ldc 2` pushes the second pool entry, each above the value 7. -/
theorem push_constants_witness :
    (∃ g, body pool_class (execute pool_class 0) (code_method [0x10, 0xfb]) push_frame
        = some (g, false) ∧ g.s_i = 2 ∧ g.pc = 2 ∧ rd g.stack 1 = -5 ∧ rd g.stack 0 = 7) ∧
    (∃ g, body pool_class (execute pool_class 0) (code_method [0x11, 0xff, 0xfe]) push_frame
        = some (g, false) ∧ g.s_i = 2 ∧ g.pc = 3 ∧ rd g.stack 1 = -2) ∧
    (∃ g, body pool_class (execute pool_class 0) (code_method [0x02]) push_frame
        = some (g, false) ∧ g.s_i = 2 ∧ g.pc = 1 ∧ rd g.stack 1 = -1) ∧
    (∃ g, body pool_class (execute pool_class 0) (code_method [0x12, 0x02]) push_frame
        = some (g, false) ∧ g.s_i = 2 ∧ g.pc = 2 ∧ rd g.stack 1 = -7) := by
  refine ⟨?_, ?_, ?_, ?_⟩
  · obtain ⟨g, a1, a2, a3, a4, _, _, a7, _⟩ := (push_constants pool_class
      (execute pool_class 0) (code_method [0x10, 0xfb]) push_frame 1 (by rfl) (by decide)
      (by decide) (by decide)).1 (by decide) (by decide)
    exact ⟨g, a1, a2, a3, by rw [a4]; decide, by rw [a7 0 (by decide)]; decide⟩
  · obtain ⟨g, a1, a2, a3, a4, _⟩ := (push_constants pool_class
      (execute pool_class 0) (code_method [0x11, 0xff, 0xfe]) push_frame 1 (by rfl) (by decide)
      (by decide) (by decide)).2.1 (by decide) (by decide)
    exact ⟨g, a1, a2, a3, by rw [a4]; decide⟩
  · obtain ⟨g, a1, a2, a3, a4, _⟩ := (push_constants pool_class
      (execute pool_class 0) (code_method [0x02]) push_frame 1 (by rfl) (by decide)
      (by decide) (by decide)).2.2.1 (-1) (by decide) (by decide) (by decide) (by decide)
    exact ⟨g, a1, a2, a3, a4⟩
  · obtain ⟨g, a1, a2, a3, a4, _⟩ := (push_constants pool_class
      (execute pool_class 0) (code_method [0x12, 0x02]) push_frame 1 (by rfl) (by decide)
      (by decide) (by decide)).2.2.2 2 (by decide) (by decide) (by decide) (by decide)
    exact ⟨g, a1, a2, a3, by rw [a4]; decide⟩

/-- Claim C15: the method `iconst_2; iconst_3; iadd; invokevirtual; return` with
`max_stack = 2`, also when a 3-byte `getstatic` precedes it, run on any locals (zeroed
ones among them) from an empty output, returns with `has_value = false` for every fuel
from 6 (from 7 with the `getstatic`), and its output is the one integer 5, that is the
text of the single line `5`. -/
theorem sum_prints_five (cls : class_file_t) (locals : List Int) (heap : heap_t)
    (max_locals fuel : Nat) :
    (∃ g, execute cls (fuel + 6) (sum_method max_locals) locals heap [] = some g ∧
      g.result.has_value = false ∧ g.out = [5] ∧ printed g.out = "5\n") ∧
    (∃ g, execute cls (fuel + 7) (sum_method_getstatic max_locals) locals heap [] = some g ∧
      g.result.has_value = false ∧ g.out = [5] ∧ printed g.out = "5\n") := by
  constructor
  · obtain ⟨g, h1, h2, h3, _⟩ := sum_tail cls fuel (sum_method max_locals)
      (init_frame (sum_method max_locals) locals heap [])
      (by show (5 : Nat) ≠ i_return; decide) rfl rfl rfl rfl rfl rfl rfl rfl rfl
    exact ⟨g, h1, h2, h3, by rw [h3]; decide⟩
  · obtain ⟨g, h1, h2, h3, _⟩ := sum_tail cls fuel (sum_method_getstatic max_locals)
      { init_frame (sum_method_getstatic max_locals) locals heap [] with
        curr := i_getstatic, pc := szadd 0 3 }
      (by show i_getstatic ≠ i_return; decide) rfl rfl rfl rfl rfl rfl rfl rfl rfl
    refine ⟨g, ?_, h2, h3, by rw [h3]; decide⟩
    rw [← h1]
    exact loop_step cls (fuel + 6) (sum_method_getstatic max_locals) _ _
      (by show i_getstatic ≠ i_return; decide)
      (body_getstatic cls _ (sum_method_getstatic max_locals) _ rfl)

/-- Claim C16, refuted as stated: line 214 calls `execute` natively, once per level of the
recursion, so a run returns only if the host stack holds the whole chain of nested calls.
With room for two nested calls the factorial of 3 does not return, whatever the fuel,
while with room for three it returns 6; and on no host stack of fewer than `INT32_MAX`
nested calls does the factorial of the 32-bit `n = INT32_MAX` return. -/
theorem factorial_exhausts_host_stack :
    (execute_bounded fact_class 3 100 fact_method [3] [] []).map frame.result
      = some { has_value := true, value := 6 } ∧
    (∀ fuel, execute_bounded fact_class 2 fuel fact_method [3] [] [] = none) ∧
    (∀ D fuel, D < 2147483647 →
      execute_bounded fact_class D fuel fact_method [2147483647] [] [] = none) := by
  refine ⟨by decide, fun fuel => ?_, fun D fuel hD => ?_⟩
  · cases h : execute_bounded fact_class 2 fuel fact_method [3] [] [] with
    | none => rfl
    | some g =>
      have := fact_needs_depth fact_class rfl 2 fuel 3 [] [] g (by decide) (by decide) h
      omega
  · cases h : execute_bounded fact_class D fuel fact_method [2147483647] [] [] with
    | none => rfl
    | some g =>
      have := fact_needs_depth fact_class rfl D fuel 2147483647 [] [] g (by decide)
        (by decide) h
      omega

/-- Claim C16, amended: when the class model resolves the index of its `invokestatic` to
`fact_method` itself and the host stack holds `D` nested calls of `execute`, `execute` on
`fact_method` and a 32-bit `n ≤ D` returns for every fuel from some bound on, leaving the
heap and the output alone, with a present value `v`: `v = 1` when `n ≤ 0`, `v` is `n!`
reduced modulo `2 ^ 32` into the signed range when `n ≥ 1`, and `v = n!` when
`1 ≤ n ≤ 12`; for `n > D` it does not return.  Consequently, when `D ≥ 6`, the entry
method `bipush 5; invokestatic; invokevirtual; return` prints exactly 120 and returns no
value. -/
theorem factorial_within_host_stack (cls : class_file_t)
    (hres : cls.find_method_from_index 1 = fact_method) (n : Int)
    (hn0 : -2147483648 ≤ n) (hn1 : n ≤ 2147483647) (D : Nat) (locals : List Int)
    (heap : heap_t) (out : List Int) :
    (n ≤ (D : Int) →
      ∃ N v, (∀ fuel, N ≤ fuel →
          ∃ g, execute_bounded cls D fuel fact_method [n] heap out = some g ∧
            g.result = { has_value := true, value := v } ∧ g.heap = heap ∧ g.out = out) ∧
        (n ≤ 0 → v = 1) ∧
        (1 ≤ n → reduces32 ((Nat.factorial n.toNat : Nat) : Int) v) ∧
        (1 ≤ n → n ≤ 12 → v = ((Nat.factorial n.toNat : Nat) : Int))) ∧
    ((D : Int) < n → ∀ fuel, execute_bounded cls D fuel fact_method [n] heap out = none) ∧
    (6 ≤ D →
      ∃ N, ∀ fuel, N ≤ fuel →
        ∃ g, execute_bounded cls D fuel fact_entry locals heap [] = some g ∧
          g.result.has_value = false ∧ g.out = [120] ∧ printed g.out = "120\n" ∧
          g.heap = heap) := by
  refine ⟨fun hD => ?_, fun hD fuel => ?_, fun hD => ?_⟩
  · rcases le_or_lt n 0 with hneg | hpos
    · refine ⟨4, 1, fun fuel hf => ?_, fun _ => rfl, fun h => absurd h (by omega),
        fun h => absurd h (by omega)⟩
      obtain ⟨g, e1, e2, e3, e4⟩ := fact_base cls D n hneg heap out 0
      exact ⟨g, loop_bounded_mono cls 4 fuel D D _ _ g hf (le_refl _) e1, e2, e3, e4⟩
    · obtain ⟨g, e1, e2, e3, e4⟩ := fact_nat cls hres n.toNat (by omega) D (by omega) heap out
      have hcast : ((n.toNat : Nat) : Int) = n := by omega
      rw [hcast] at e1
      refine ⟨7 * n.toNat + 4, _,
        fun fuel hf => ⟨g, loop_bounded_mono cls _ fuel D D _ _ g hf (le_refl _) e1, e2, e3, e4⟩,
        fun h => absurd h (by omega), fun _ => toS32_reduces32 _, fun _ h12 => ?_⟩
      have hle : Nat.factorial n.toNat ≤ Nat.factorial 12 := Nat.factorial_le (by omega)
      have h12v : Nat.factorial 12 = 479001600 := by decide
      exact toS32_of_range _ (by omega) (by omega)
  · cases h : execute_bounded cls D fuel fact_method [n] heap out with
    | none => rfl
    | some g =>
      have := fact_needs_depth cls hres D fuel n heap out g (by omega) hn1 h
      omega
  · obtain ⟨d, rfl⟩ : ∃ d, D = d + 1 := ⟨D - 1, by omega⟩
    obtain ⟨fc, c1, c2, c3, c4⟩ := fact_nat cls hres 5 (by decide) d (by omega) heap []
    have hv : toS32 ((Nat.factorial 5 : Nat) : Int) = 120 := by decide
    rw [hv] at c2
    have key : loop_bounded cls (d + 1) 41 fact_entry (init_frame fact_entry locals heap [])
        = some ⟨8, 0, [120], i_return, locals, heap, [120], ⟨false, 0⟩⟩ := by
      refine (loop_bounded_step cls (d + 1) _ fact_entry _
        ⟨2, 1, [5], i_bipush, locals, heap, [], ⟨false, 0⟩⟩
        (by show i_bipush ≠ i_return; decide)
        ((body_bipush cls _ fact_entry (init_frame fact_entry locals heap []) rfl).trans
          rfl)).trans ?_
      have hb := body_invokestatic cls (nested_call cls (d + 1) 39) fact_entry
        ⟨2, 1, [5], i_bipush, locals, heap, [], ⟨false, 0⟩⟩ rfl
      have hchild : cls.find_method_from_index (toU2 (operand16 fact_entry.code
          (⟨2, 1, [5], i_bipush, locals, heap, [], ⟨false, 0⟩⟩ : frame).pc)) = fact_method := by
        have hidx : toU2 (operand16 fact_entry.code 2) = 1 := by decide
        show cls.find_method_from_index (toU2 (operand16 fact_entry.code 2)) = fact_method
        rw [hidx]
        exact hres
      rw [hchild] at hb
      have hcall1 : nested_call cls (d + 1) 39 fact_method
          (callee_locals fact_method
            (⟨2, 1, [5], i_bipush, locals, heap, [], ⟨false, 0⟩⟩ : frame).stack
            (⟨2, 1, [5], i_bipush, locals, heap, [], ⟨false, 0⟩⟩ : frame).s_i)
          (⟨2, 1, [5], i_bipush, locals, heap, [], ⟨false, 0⟩⟩ : frame).heap
          (⟨2, 1, [5], i_bipush, locals, heap, [], ⟨false, 0⟩⟩ : frame).out = some fc := c1
      rw [hcall1, Option.map_some'] at hb
      refine (loop_bounded_step cls (d + 1) _ fact_entry _
        ⟨5, 1, [120], i_invokestatic, locals, heap, [], ⟨false, 0⟩⟩
        (by show i_bipush ≠ i_return; decide) (hb.trans ?_)).trans ?_
      · unfold finish_call
        simp only [c2, c3, c4, if_true]
        rfl
      refine (loop_bounded_step cls (d + 1) _ fact_entry _
        ⟨8, 0, [120], i_invokevirtual, locals, heap, [120], ⟨false, 0⟩⟩
        (by show i_invokestatic ≠ i_return; decide)
        ((body_invokevirtual cls _ fact_entry
          ⟨5, 1, [120], i_invokestatic, locals, heap, [], ⟨false, 0⟩⟩ rfl).trans rfl)).trans ?_
      refine (loop_bounded_step cls (d + 1) _ fact_entry _
        ⟨8, 0, [120], i_return, locals, heap, [120], ⟨false, 0⟩⟩
        (by show i_invokevirtual ≠ i_return; decide)
        ((body_return cls _ fact_entry
          ⟨8, 0, [120], i_invokevirtual, locals, heap, [120], ⟨false, 0⟩⟩ rfl).trans rfl)).trans ?_
      exact loop_bounded_exit cls (d + 1) 36 fact_entry _ rfl
    have hp : printed [120] = "120\n" := by decide
    exact ⟨41, fun fuel hf =>
      ⟨_, loop_bounded_mono cls 41 fuel (d + 1) (d + 1) _ _ _ hf (le_refl _) key,
        rfl, rfl, hp, rfl⟩⟩

/-- Witness of the amended C16: with `fact_class` and a host stack of five nested calls
the factorial of 5 is 120, and with four the call does not return. -/
theorem factorial_within_host_stack_witness :
    (∃ N, ∀ fuel, N ≤ fuel →
      ∃ g, execute_bounded fact_class 5 fuel fact_method [5] [] [] = some g ∧
        g.result = { has_value := true, value := 120 }) ∧
    (∀ fuel, execute_bounded fact_class 4 fuel fact_method [5] [] [] = none) := by
  constructor
  · obtain ⟨N, v, h1, _, _, h4⟩ := (factorial_within_host_stack fact_class rfl 5
      (by decide) (by decide) 5 [] [] []).1 (by decide)
    have hv : v = 120 := by rw [h4 (by decide) (by decide)]; decide
    subst hv
    exact ⟨N, fun fuel hf => (h1 fuel hf).imp fun g hg => ⟨hg.1, hg.2.1⟩⟩
  · exact (factorial_within_host_stack fact_class rfl 5 (by decide) (by decide) 4 [] []
      []).2.1 (by decide)

/-- Claim C17: for a one-operand conditional branch at height `h ≥ 1` the pass sets `pc`
to the result of `jump_one` and the height to `h - 1`; for a two-operand conditional
branch at height `h ≥ 2` it sets `pc` to the result of `jump_two` and the height to
`h - 2`; for `goto` it sets `pc` to `pc` plus the signed 16-bit big-endian offset and
keeps the height.  In all three cases the stack contents, the locals, the heap and the
output are unchanged. -/
theorem control_transfer (cls : class_file_t)
    (exec : method_t → List Int → heap_t → List Int → Option frame)
    (method : method_t) (f : frame) (h : Int) (hh : f.s_i = h) :
    (∀ c : Nat, byteAt method.code f.pc = c → i_ifeq ≤ c → c ≤ i_ifle → 1 ≤ h →
      ∃ g, body cls exec method f = some (g, false) ∧
        g.pc = jump_one c method.code f.stack f.pc h ∧ g.s_i = h - 1 ∧
        g.stack = f.stack ∧ g.locals = f.locals ∧ g.heap = f.heap ∧ g.out = f.out) ∧
    (∀ c : Nat, byteAt method.code f.pc = c → i_if_icmpeq ≤ c → c ≤ i_if_icmple → 2 ≤ h →
      ∃ g, body cls exec method f = some (g, false) ∧
        g.pc = jump_two c method.code f.stack f.pc h ∧ g.s_i = h - 2 ∧
        g.stack = f.stack ∧ g.locals = f.locals ∧ g.heap = f.heap ∧ g.out = f.out) ∧
    (∀ off : Int, byteAt method.code f.pc = i_goto →
      off = s16be (byteAt method.code (f.pc + 1)) (byteAt method.code (f.pc + 2)) →
      f.pc + 2 < method.code.length → method.code.length < 4294967296 →
      0 ≤ (f.pc : Int) + off →
      ∃ g, body cls exec method f = some (g, false) ∧
        (g.pc : Int) = (f.pc : Int) + off ∧ g.s_i = h ∧
        g.stack = f.stack ∧ g.locals = f.locals ∧ g.heap = f.heap ∧ g.out = f.out) := by
  subst hh
  refine ⟨?_, ?_, ?_⟩
  · intro c hcur h0 h1 _
    exact ⟨_, body_if cls exec method f c hcur h0 h1, rfl, rfl, rfl, rfl, rfl, rfl⟩
  · intro c hcur h0 h1 _
    exact ⟨_, body_if_icmp cls exec method f c hcur h0 h1, rfl, rfl, rfl, rfl, rfl, rfl⟩
  · intro off hcur hoff hpc hlen hpos
    have hb := s16be_bounds _ _ (byteAt_lt method.code (f.pc + 1))
      (byteAt_lt method.code (f.pc + 2))
    refine ⟨_, body_goto cls exec method f hcur, ?_, rfl, rfl, rfl, rfl, rfl⟩
    simp only
    rw [toShort_operand16 _ _ (by omega), ← hoff]
    exact szadd_int f.pc off hpos (by omega)

/-- Witness of C17: on the stack `[3, 0]`, `ifeq -2` at `pc = 2` jumps to 0, `if_icmpgt -2`
jumps to 0, and `goto -2` jumps to 0. -/
theorem control_transfer_witness :
    (∃ g, body empty_class (execute empty_class 0) (code_method [0, 0, 0x99, 0xff, 0xfe])
        (branch_frame 2) = some (g, false) ∧ g.pc = 0 ∧ g.s_i = 1 ∧ g.stack = [3, 0]) ∧
    (∃ g, body empty_class (execute empty_class 0) (code_method [0, 0, 0xa3, 0xff, 0xfe])
        (branch_frame 2) = some (g, false) ∧ g.pc = 0 ∧ g.s_i = 0 ∧ g.stack = [3, 0]) ∧
    (∃ g, body empty_class (execute empty_class 0) (code_method [0, 0, 0xa7, 0xff, 0xfe])
        (branch_frame 2) = some (g, false) ∧ (g.pc : Int) = 0 ∧ g.s_i = 2 ∧
        g.stack = [3, 0]) := by
  refine ⟨?_, ?_, ?_⟩
  · obtain ⟨g, a1, a2, a3, a4, _⟩ := (control_transfer empty_class (execute empty_class 0)
      (code_method [0, 0, 0x99, 0xff, 0xfe]) (branch_frame 2) 2 rfl).1 0x99 (by decide)
      (by decide) (by decide) (by decide)
    exact ⟨g, a1, by rw [a2]; decide, by rw [a3]; decide, a4⟩
  · obtain ⟨g, a1, a2, a3, a4, _⟩ := (control_transfer empty_class (execute empty_class 0)
      (code_method [0, 0, 0xa3, 0xff, 0xfe]) (branch_frame 2) 2 rfl).2.1 0xa3 (by decide)
      (by decide) (by decide) (by decide)
    exact ⟨g, a1, by rw [a2]; decide, by rw [a3]; decide, a4⟩
  · obtain ⟨g, a1, a2, a3, a4, _⟩ := (control_transfer empty_class (execute empty_class 0)
      (code_method [0, 0, 0xa7, 0xff, 0xfe]) (branch_frame 2) 2 rfl).2.2 (-2) (by decide)
      (by decide) (by decide) (by decide) (by decide)
    exact ⟨g, a1, by rw [a2]; decide, a3, a4⟩

/-- Claim C18: for a slot index `k` (operand byte 1) below `max_locals` and an immediate
byte `c` (operand byte 2), `iinc` sets `locals[k]` to `locals[k]` plus `c` read as a signed
8-bit value (in `-128..127`), reduced modulo `2 ^ 32` into the signed range, advances `pc`
by 3 and leaves every other local, the stack and the height unchanged. -/
theorem increment_local (cls : class_file_t)
    (exec : method_t → List Int → heap_t → List Int → Option frame)
    (method : method_t) (f : frame) (k c : Nat)
    (hcur : byteAt method.code f.pc = i_iinc)
    (hk : byteAt method.code (f.pc + 1) = k) (hc : byteAt method.code (f.pc + 2) = c)
    (hml : f.locals.length = method.max_locals) (hkl : k < method.max_locals)
    (hpc : f.pc + 2 < method.code.length) (hlen : method.code.length < 4294967296) :
    ∃ g, body cls exec method f = some (g, false) ∧
      reduces32 (rd f.locals k + s8 c) (rd g.locals k) ∧ -128 ≤ s8 c ∧ s8 c ≤ 127 ∧
      g.pc = f.pc + 3 ∧ (∀ j : Int, j ≠ k → rd g.locals j = rd f.locals j) ∧
      g.stack = f.stack ∧ g.s_i = f.s_i := by
  have e1 : szadd f.pc 1 = f.pc + 1 := szadd_nat f.pc 1 (by omega)
  have e2 : szadd f.pc 2 = f.pc + 2 := szadd_nat f.pc 2 (by omega)
  have e3 : szadd f.pc 3 = f.pc + 3 := szadd_nat f.pc 3 (by omega)
  have hc256 : c < 256 := by rw [← hc]; exact byteAt_lt _ _
  have hkl1 : (k : Int) < f.locals.length := by rw [hml]; exact_mod_cast hkl
  have hb := body_iinc cls exec method f hcur
  rw [e1, e2, e3, hk, hc, toInt8_eq_s8 c hc256] at hb
  refine ⟨_, hb, ?_, ?_, ?_, rfl, fun j hj => rd_wr_ne _ _ _ _ (Ne.symm hj), rfl, rfl⟩
  · simp only
    rw [rd_wr_same _ _ _ (by omega) hkl1]
    exact toS32_reduces32 _
  · unfold s8
    split <;> omega
  · unfold s8
    split <;> omega

/-- Witness of C18: `iinc 0 0xff` takes the local 10 to 9, and `iinc 1 1` takes the local
`INT32_MAX` to `INT32_MIN`. -/
theorem increment_local_witness :
    (∃ g, body empty_class (execute empty_class 0)
        { code_method [0x84, 0x00, 0xff] with max_locals := 2 } (branch_frame 0)
        = some (g, false) ∧ g.locals = [9, 2147483647] ∧ g.pc = 3) ∧
    (∃ g, body empty_class (execute empty_class 0)
        { code_method [0x84, 0x01, 0x01] with max_locals := 2 } (branch_frame 0)
        = some (g, false) ∧ reduces32 (2147483647 + 1) (rd g.locals 1) ∧
        g.locals = [10, -2147483648]) := by
  constructor
  · obtain ⟨g, a1, _, _, _, a5, _⟩ := increment_local empty_class (execute empty_class 0)
      { code_method [0x84, 0x00, 0xff] with max_locals := 2 } (branch_frame 0) 0 255
      (by decide) (by decide) (by decide) (by decide) (by decide) (by decide) (by decide)
    have hg := a1.symm.trans (show body empty_class (execute empty_class 0)
      { code_method [0x84, 0x00, 0xff] with max_locals := 2 } (branch_frame 0)
        = some ({ branch_frame 3 with curr := i_iinc, locals := [9, 2147483647] }, false)
      by decide)
    simp only [Option.some.injEq, Prod.mk.injEq, and_true] at hg
    subst hg
    exact ⟨_, a1, rfl, a5⟩
  · obtain ⟨g, a1, a2, _⟩ := increment_local empty_class (execute empty_class 0)
      { code_method [0x84, 0x01, 0x01] with max_locals := 2 } (branch_frame 0) 1 1
      (by decide) (by decide) (by decide) (by decide) (by decide) (by decide) (by decide)
    have hg := a1.symm.trans (show body empty_class (execute empty_class 0)
      { code_method [0x84, 0x01, 0x01] with max_locals := 2 } (branch_frame 0)
        = some ({ branch_frame 3 with curr := i_iinc, locals := [10, -2147483648] }, false)
      by decide)
    simp only [Option.some.injEq, Prod.mk.injEq, and_true] at hg
    subst hg
    exact ⟨_, a1, a2, rfl⟩

/-- Claim C19: on a stack of height `h ≥ 2` whose top `stack[h - 1]` is 0, each
two-operand evaluator call agrees with the corresponding one-operand call at height
`h - 1`: `jump_two(if_icmpXX, code, stack, pc, h) = jump_one(ifXX, code, stack, pc, h - 1)`
for the six pairs of opcodes. -/
theorem evaluators_agree_on_zero (code_inst : List u1) (stack : List Int) (pc : Nat) (h : Int)
    (_h2 : 2 ≤ h) (htop : rd stack (h - 1) = 0) :
    jump_two i_if_icmpeq code_inst stack pc h = jump_one i_ifeq code_inst stack pc (h - 1) ∧
    jump_two i_if_icmpne code_inst stack pc h = jump_one i_ifne code_inst stack pc (h - 1) ∧
    jump_two i_if_icmplt code_inst stack pc h = jump_one i_iflt code_inst stack pc (h - 1) ∧
    jump_two i_if_icmpge code_inst stack pc h = jump_one i_ifge code_inst stack pc (h - 1) ∧
    jump_two i_if_icmpgt code_inst stack pc h = jump_one i_ifgt code_inst stack pc (h - 1) ∧
    jump_two i_if_icmple code_inst stack pc h = jump_one i_ifle code_inst stack pc (h - 1) := by
  have hidx : h - 1 - 1 = h - 2 := by ring
  refine ⟨?_, ?_, ?_, ?_, ?_, ?_⟩ <;>
    simp +decide only [jump_two, jump_one, htop, hidx, Bool.false_and, Bool.true_and,
      Bool.false_or, Bool.or_false, decide_False, decide_True]

/-- Witness of C19: the stack `[-4, 0]` at height 2 with a forward offset of 5. -/
theorem evaluators_agree_on_zero_witness :
    jump_two i_if_icmplt [0xa1, 0x00, 0x05] [-4, 0] 0 2 = 5 ∧
    jump_one i_iflt [0xa1, 0x00, 0x05] [-4, 0] 0 1 = 5 := by
  have h := evaluators_agree_on_zero [0xa1, 0x00, 0x05] [-4, 0] 0 2 (by decide) (by decide)
  have h1 : jump_one i_iflt [0xa1, 0x00, 0x05] [-4, 0] 0 (2 - 1) = 5 := by decide
  exact ⟨h.2.2.1.trans h1, h1⟩

/-- Claim C20: the header slot is not protected: for an array of logical length `L`
referenced by `r` and any value `v`, `iastore` on the operands `(r, -1, v)` writes the
backing element 0, so that a following `arraylength` on `r` pushes `v`, whereas it pushed
`L` before the store; with `v ≠ L` the array's length has changed. -/
theorem header_overwritten (cls : class_file_t)
    (exec : method_t → List Int → heap_t → List Int → Option frame)
    (method : method_t) (f : frame) (r L v h : Int)
    (hat : array_at f.heap r L) (hL0 : 0 ≤ L) (hcur : byteAt method.code f.pc = i_iastore)
    (hh : f.s_i = h) (_h3 : 3 ≤ h) (hr : rd f.stack (h - 3) = r)
    (hi : rd f.stack (h - 2) = -1) (hv : rd f.stack (h - 1) = v) :
    ∃ g, body cls exec method f = some (g, false) ∧ rd (heap_get g.heap r) 0 = v ∧
      ∀ (m1 : method_t) (f1 : frame), byteAt m1.code f1.pc = i_arraylength → 1 ≤ f1.s_i →
        f1.s_i ≤ f1.stack.length → rd f1.stack (f1.s_i - 1) = r →
        (f1.heap = f.heap →
          ∃ g1, body cls exec m1 f1 = some (g1, false) ∧ rd g1.stack (f1.s_i - 1) = L) ∧
        (f1.heap = g.heap →
          ∃ g1, body cls exec m1 f1 = some (g1, false) ∧ rd g1.stack (f1.s_i - 1) = v) := by
  obtain ⟨⟨hr0, hr1, hlen⟩, hhead⟩ := hat
  subst hh
  have hslot : rd (heap_get (heap_put f.heap r (wr (heap_get f.heap r) 0 v)) r) 0 = v := by
    rw [heap_get_put_same _ _ _ hr0 hr1]
    exact rd_wr_same _ _ _ (le_refl _) (by omega)
  have hb := body_iastore cls exec method f hcur
  rw [hr, hi, hv, show toS32 (-1 + 1) = 0 by decide] at hb
  refine ⟨_, hb, hslot, ?_⟩
  intro m1 f1 hcur1 hs1 hcap1 htop1
  have hb1 := body_arraylength cls exec m1 f1 hcur1
  constructor
  · intro hheap
    refine ⟨_, hb1, ?_⟩
    simp only
    rw [rd_wr_same _ _ _ (by omega) (by omega), htop1, hheap]
    exact hhead
  · intro hheap
    refine ⟨_, hb1, ?_⟩
    simp only
    rw [rd_wr_same _ _ _ (by omega) (by omega), htop1, hheap]
    exact hslot

/-- Witness of C20: on the array `[3, 0, 0, 0]` of length 3, the store of 9 at index -1
makes `arraylength` push 9 instead of 3. -/
theorem header_overwritten_witness :
    array_at [[3, 0, 0, 0]] 0 3 ∧ (9 : Int) ≠ 3 ∧
    ∃ g g1, body empty_class (execute empty_class 0) (code_method [0x4f])
        (heap_frame [0, -1, 9] [[3, 0, 0, 0]]) = some (g, false) ∧
      body empty_class (execute empty_class 0) (code_method [0xbe]) (heap_frame [0] g.heap)
        = some (g1, false) ∧ rd g1.stack 0 = 9 := by
  obtain ⟨g, a1, _, a3⟩ := header_overwritten empty_class (execute empty_class 0)
    (code_method [0x4f]) (heap_frame [0, -1, 9] [[3, 0, 0, 0]]) 0 3 9 3 (by decide)
    (by decide) (by decide) (by rfl) (by decide) (by decide) (by decide) (by decide)
  obtain ⟨g1, b1, b2⟩ := (a3 (code_method [0xbe]) (heap_frame [0] g.heap) rfl
    (by simp [heap_frame]) (by simp [heap_frame]) rfl).2 rfl
  exact ⟨by decide, by decide, g, g1, a1, b1, b2⟩

end JVM
